import Mathlib

/-!
# Verification of the blinder reverse-search (percolator) matching core

Shallow embedding of the matching core of the `blinder` repository:

* `src/query_decomposer.rs` — `QueryDecomposer` (`decompose`,
  `decompose_boolean`, `decompose_boost`, `decompose_disjunction_max`);
* `src/presearcher/scorer.rs` — `idf` and `TfIdfScorer`;
* `src/presearcher/term_filtered_presearcher.rs` —
  `TermFilteredPresearcher` (`to_field_terms`, `convert_query_to_document`,
  `convert_document_to_query`);
* `src/monitor/mod.rs` and `src/monitor/matcher.rs` — `Monitor`
  (`register_query`) and `MonitorMatcher` (`match_document`, the two
  collectors).

Modelling conventions: machine integers (`u64`, `usize`) become `Nat`;
`f32` boost factors become `ℚ` and `f32` scores become `ℝ` (with `ln`
modelled by `Real.log`); tantivy's `Box<dyn Query>` trees become the
inductive `Qry`; tantivy's `HashMap`/`HashSet`/`DashMap` become
association lists (order-insensitive facts only are proved about them);
a synthetic document's space-joined text blob is modelled by the list of
the joined term values (the indexing tokenizer re-splits the blob into
exactly these tokens).
-/

/-- A value carried by a tantivy `Term` or by a document field
(`OwnedValue` restricted to the variants the matching core manipulates). -/
inductive TValue where
  | str (s : String)
  | boolV (b : Bool)
  | u64 (n : Nat)
deriving DecidableEq, Repr

/-- A tantivy `Term`: a field id paired with a value
(`Term::from_field_text` / `from_field_bool` / `from_field_u64`). -/
structure Tm where
  field : Nat
  value : TValue
deriving DecidableEq, Repr

/-- `tantivy::query_grammar::Occur`. -/
inductive Occur where
  | should
  | must
  | mustNot
deriving DecidableEq, Repr

/-- The query tree dispatched on by `QueryDecomposer::decompose`:
`TermQuery`, `TermSetQuery`, `BooleanQuery`, `BoostQuery`,
`DisjunctionMaxQuery`, and `AllQuery` as an opaque leaf that cannot be
term-constrained.  Boost factors (`f32`) are modelled by `ℚ`. -/
inductive Qry where
  | term (t : Tm)
  | termSet (ts : List Tm)
  | boolean (clauses : List (Occur × Qry))
  | boost (q : Qry) (factor : ℚ)
  | disjunctionMax (disjuncts : List Qry)
  | all
deriving Repr

/-- `tantivy::query::QueryDocumentTree`, the extraction-side AST. -/
inductive QTree where
  | conjunction (trees : List QTree)
  | disjunction (trees : List QTree)
  | term (t : Tm)
  | anyTerm
deriving Repr

/-! ## Query decomposer (`src/query_decomposer.rs`)

The Rust decomposer pushes sub-queries into a shared `Vec` through a
saved-offset `List` view; each scope observes exactly the suffix it
appended.  The functional embedding returns, for each call, the list of
sub-queries that call appends to its scope, in emission order. -/

/-- The `Must` children of a boolean query's clause list, in order
(the `mandatory_clauses` vector of `decompose_boolean`). -/
def mustsOf (clauses : List (Occur × Qry)) : List Qry :=
  clauses.filterMap fun c => if c.1 = Occur.must then some c.2 else none

/-- The `MustNot` children of a boolean query's clause list, in order
(the `exclusion_clauses` vector of `decompose_boolean`). -/
def mustNotsOf (clauses : List (Occur × Qry)) : List Qry :=
  clauses.filterMap fun c => if c.1 = Occur.mustNot then some c.2 else none

/-- The `Should` children of a boolean query's clause list, in order. -/
def shouldsOf (clauses : List (Occur × Qry)) : List Qry :=
  clauses.filterMap fun c => if c.1 = Occur.should then some c.2 else none

mutual

/-- `QueryDecomposer::decompose`: dispatch on the query variant; a query
that is not a boolean, boost, or disjunction-max is appended as-is.  The
boolean case is `QueryDecomposer::decompose_boolean` (restated standalone
as `decomposeBoolean` below): `shouldOutputs clauses` is the scope content
after the partitioning loop (each `Should` child decomposed with a fresh
saved offset); when exactly one `Must` child exists, `mustOutputs clauses`
equals its decomposition. -/
def decompose : Qry → List Qry
  | .boolean clauses =>
      let shouldOut := shouldOutputs clauses
      let musts := mustsOf clauses
      if 1 < musts.length ∨ (musts.length = 1 ∧ ¬shouldOut.isEmpty) then
        shouldOut ++ [.boolean clauses]
      else
        let out := shouldOut ++
          (if musts.length = 1 then mustOutputs clauses else [])
        let mustNots := mustNotsOf clauses
        if mustNots.isEmpty then out
        else
          out.map fun sub =>
            .boolean ((Occur.must, sub) ::
              mustNots.map fun e => (Occur.mustNot, e))
  | .boost q f => if f = 1 then decompose q else (decompose q).map (fun s => .boost s f)
  | .disjunctionMax qs => decomposeList qs
  | q => [q]

/-- Decompositions of the `Should` children of a clause list, concatenated
in clause order (the sub-queries the partitioning loop of
`decompose_boolean` appends to the current scope). -/
def shouldOutputs : List (Occur × Qry) → List Qry
  | [] => []
  | (Occur.should, q) :: rest => decompose q ++ shouldOutputs rest
  | _ :: rest => shouldOutputs rest

/-- Decompositions of the `Must` children of a clause list, concatenated in
clause order.  `decompose_boolean` only consults this when there is exactly
one `Must` child, in which case it is that child's decomposition. -/
def mustOutputs : List (Occur × Qry) → List Qry
  | [] => []
  | (Occur.must, q) :: rest => decompose q ++ mustOutputs rest
  | _ :: rest => mustOutputs rest

/-- `QueryDecomposer::decompose_disjunction_max`: decompose every disjunct
into the same scope. -/
def decomposeList : List Qry → List Qry
  | [] => []
  | q :: qs => decompose q ++ decomposeList qs

end

/-- `QueryDecomposer::decompose_boolean`, standalone: identical to the
boolean case of `decompose`. -/
def decomposeBoolean (clauses : List (Occur × Qry)) : List Qry :=
  let shouldOut := shouldOutputs clauses
  let musts := mustsOf clauses
  if 1 < musts.length ∨ (musts.length = 1 ∧ ¬shouldOut.isEmpty) then
    shouldOut ++ [.boolean clauses]
  else
    let out := shouldOut ++ (if musts.length = 1 then mustOutputs clauses else [])
    let mustNots := mustNotsOf clauses
    if mustNots.isEmpty then out
    else
      out.map fun sub =>
        .boolean ((Occur.must, sub) :: mustNots.map fun e => (Occur.mustNot, e))

/-! ## Schema, documents, and indexing

The query-index schema is the user schema extended with the reserved
fields `__monitor_query_id__` (u64, indexed + stored) and
`__anytermfield__` (bool, indexed); `Schema.anyterm` names the latter.
The parent-id field is kept alongside each synthetic document rather
than inside it (it is a u64 field no candidate-selection term targets). -/

/-- A tantivy field type, restricted to the variants the core
distinguishes: `Str` with its optional indexing options (carrying the
tokenizer name), `Bool`, and `U64` standing for the remaining types the
presearcher skips. -/
inductive FType where
  | strT (indexing : Option String)
  | boolT
  | u64T
deriving DecidableEq, Repr

/-- A schema: a field type for every field id, plus the id of the
reserved `__anytermfield__` bool field. -/
structure Schema where
  ftype : Nat → FType
  anyterm : Nat

/-- A tokenizer manager: tokenizer name → tokenizer (text → tokens). -/
abbrev TokMgr := String → Option (String → List String)

/-- An input document: its `(field, value)` pairs in iteration order. -/
abbrev Doc := List (Nat × TValue)

/-- An indexed document, as the inverted index sees it: the list of
indexed tokens of each field. -/
abbrev IndexedDoc := Nat → List TValue

/-- An indexed value of a synthetic query document (`OwnedValue` as
written by `convert_query_to_document`): a text blob — modelled as the
list of the space-joined term values, which the indexing tokenizer
re-splits — or a bool flag. -/
inductive IVal where
  | text (tokens : List String)
  | boolI (b : Bool)
deriving DecidableEq, Repr

/-- A synthetic query document: field id → indexed value pairs. -/
abbrev SynthDoc := List (Nat × IVal)

/-- Modelled from the spec: the external index library's evaluation of a
user document into indexed per-field tokens (the ephemeral Phase-2 index:
text fields are tokenized by the field's tokenizer; bool and u64 fields
index their value; fields without usable indexing contribute nothing). -/
def indexUserDoc (schema : Schema) (tokm : TokMgr) (d : Doc) : IndexedDoc :=
  fun fl =>
    (d.filter fun e => e.1 = fl).flatMap fun e =>
      match schema.ftype fl, e.2 with
      | .strT (some tname), .str s =>
          match tokm tname with
          | some tk => (tk s).map TValue.str
          | none => []
      | .boolT, .boolV b => [.boolV b]
      | .u64T, .u64 n => [.u64 n]
      | _, _ => []

/-- Modelled from the spec: how the query index sees a stored synthetic
document — each text blob re-split into its term values, each bool flag
indexed as a bool token. -/
def indexSynth (sd : SynthDoc) : IndexedDoc :=
  fun fl =>
    (sd.filter fun e => e.1 = fl).flatMap fun e =>
      match e.2 with
      | .text ts => ts.map TValue.str
      | .boolI b => [.boolV b]

/-! ## Query matching semantics

Modelled from the spec (§3): the external library's boolean retrieval
semantics over an indexed document.  A `Boolean` matches when all `Must`
children match, no `MustNot` child matches, and — when there is no
`Must` child — at least one `Should` child matches; `Boost` is
semantically equivalent to its inner query; `DisjunctionMax` to a pure
disjunction; `AllQuery` matches every document. -/

mutual

/-- Modelled from the spec: whether a query matches an indexed document
(the result of the external library's boolean search used in both
phases). -/
def qryMatches : Qry → IndexedDoc → Bool
  | .term t, dd => decide (t.value ∈ dd t.field)
  | .termSet ts, dd => ts.any fun t => decide (t.value ∈ dd t.field)
  | .boolean clauses, dd =>
      allMustMatch clauses dd && noMustNotMatch clauses dd &&
        (!(mustsOf clauses).isEmpty || anyShouldMatch clauses dd)
  | .boost q _, dd => qryMatches q dd
  | .disjunctionMax qs, dd => anyMatches qs dd
  | .all, _ => true

/-- All `Must` children of the clause list match the document. -/
def allMustMatch : List (Occur × Qry) → IndexedDoc → Bool
  | [], _ => true
  | (Occur.must, q) :: rest, dd => qryMatches q dd && allMustMatch rest dd
  | _ :: rest, dd => allMustMatch rest dd

/-- No `MustNot` child of the clause list matches the document. -/
def noMustNotMatch : List (Occur × Qry) → IndexedDoc → Bool
  | [], _ => true
  | (Occur.mustNot, q) :: rest, dd => !qryMatches q dd && noMustNotMatch rest dd
  | _ :: rest, dd => noMustNotMatch rest dd

/-- Some `Should` child of the clause list matches the document. -/
def anyShouldMatch : List (Occur × Qry) → IndexedDoc → Bool
  | [], _ => false
  | (Occur.should, q) :: rest, dd => qryMatches q dd || anyShouldMatch rest dd
  | _ :: rest, dd => anyShouldMatch rest dd

/-- Some query of the list matches the document. -/
def anyMatches : List Qry → IndexedDoc → Bool
  | [], _ => false
  | q :: qs, dd => qryMatches q dd || anyMatches qs dd

end

/-! ## Query → extraction AST -/

mutual

/-- Modelled from the spec: the external library's `Query::to_ast`
capability deriving a `QueryDocumentTree` (§3).  Necessary-term reading
(§4.2.1): a boolean with `Must` children is as constrained as their
conjunction (`Should` children are then optional and `MustNot` children
never constrain); with no `Must` child it is the disjunction of its
`Should` children; a term is itself; a term set is a disjunction of its
terms; boost is transparent; disjunction-max is a disjunction; a leaf
that cannot be term-constrained becomes `AnyTerm`. -/
def toAst : Qry → QTree
  | .term t => .term t
  | .termSet ts => .disjunction (ts.map QTree.term)
  | .boolean clauses =>
      if (mustsOf clauses).isEmpty then .disjunction (shouldAsts clauses)
      else .conjunction (mustAsts clauses)
  | .boost q _ => toAst q
  | .disjunctionMax qs => .disjunction (toAstList qs)
  | .all => .anyTerm

/-- ASTs of the `Must` children of a clause list, in order. -/
def mustAsts : List (Occur × Qry) → List QTree
  | [] => []
  | (Occur.must, q) :: rest => toAst q :: mustAsts rest
  | _ :: rest => mustAsts rest

/-- ASTs of the `Should` children of a clause list, in order. -/
def shouldAsts : List (Occur × Qry) → List QTree
  | [] => []
  | (Occur.should, q) :: rest => toAst q :: shouldAsts rest
  | _ :: rest => shouldAsts rest

/-- ASTs of a query list, in order. -/
def toAstList : List Qry → List QTree
  | [] => []
  | q :: qs => toAst q :: toAstList qs

end

/-! ## Term selection (`TermFilteredPresearcher::to_field_terms`)

The presearcher is generic over a `PresearcherScorer`; the selection walk
only consults the scorer through its `score` method, modelled by a
function `f : QTree → ℚ` (scores are `f32`; a totally ordered field
stands in for `total_cmp`). -/

/-- The first element of `trees` sorted stably by descending score: the
earliest tree of maximal score (`sorted_trees.first()` after
`sort_by(score_b.total_cmp(score_a))`). -/
def pickMax (f : QTree → ℚ) : List QTree → Option QTree
  | [] => none
  | t :: ts => some (ts.foldl (fun best x => if f best < f x then x else best) t)

theorem pickMax_mem {f : QTree → ℚ} {trees : List QTree} {t : QTree}
    (h : pickMax f trees = some t) : t ∈ trees := by
  cases trees with
  | nil => simp [pickMax] at h
  | cons hd tl =>
    simp only [pickMax, Option.some.injEq] at h
    subst h
    suffices h : ∀ (b : QTree) (l : List QTree),
        l.foldl (fun best x => if f best < f x then x else best) b = b ∨
          l.foldl (fun best x => if f best < f x then x else best) b ∈ l by
      rcases h hd tl with h' | h'
      · rw [h']; exact List.mem_cons_self _ _
      · exact List.mem_cons_of_mem _ h'
    intro b l
    induction l generalizing b with
    | nil => left; rfl
    | cons x xs ih =>
      rcases ih (if f b < f x then x else b) with h' | h'
      · by_cases hc : f b < f x
        · right; rw [List.foldl_cons, h', if_pos hc]; exact List.mem_cons_self _ _
        · left; rw [List.foldl_cons, h', if_neg hc]
      · right; exact List.mem_cons_of_mem _ h'

/-- The second component of the first pair of maximal first component
(the scored-children analogue of `pickMax`, acting on precomputed
`(score, selection)` pairs). -/
def pickMaxPair : List (ℚ × List Tm) → Option (List Tm)
  | [] => none
  | p :: ps =>
      some (ps.foldl (fun best x => if best.1 < x.1 then x else best) p).2

mutual

/-- `TermFilteredPresearcher::to_field_terms`, returning the selected
terms (the Rust accumulates them in a field → term-set map; the flat
selection list is grouped per field by `convertQueryToDocument`):
a conjunction scores every child and keeps only the selection of its
highest-scoring child (earliest on ties, like the stable descending
sort), a disjunction selects from every child, a term selects itself, and
`AnyTerm` selects the marker term `true` on the reserved `anyterm`
field. -/
def selectTerms (f : QTree → ℚ) (anyterm : Nat) : QTree → List Tm
  | .conjunction trees => (pickMaxPair (selScored f anyterm trees)).getD []
  | .disjunction trees => selectTermsList f anyterm trees
  | .term t => [t]
  | .anyTerm => [⟨anyterm, .boolV true⟩]

/-- Selected terms of every tree in the list, concatenated. -/
def selectTermsList (f : QTree → ℚ) (anyterm : Nat) : List QTree → List Tm
  | [] => []
  | t :: ts => selectTerms f anyterm t ++ selectTermsList f anyterm ts

/-- The `(score, selection)` pair of every tree in the list (the
`sorted_trees` vector of `to_field_terms` before sorting, with each
tree's selection computed). -/
def selScored (f : QTree → ℚ) (anyterm : Nat) : List QTree → List (ℚ × List Tm)
  | [] => []
  | t :: ts => (f t, selectTerms f anyterm t) :: selScored f anyterm ts

end

/-! ## Query → synthetic document
(`TermFilteredPresearcher::convert_query_to_document`) -/

/-- The `str` values of a term list, in order
(`terms.filter_map(|term| term.value().as_str())`). -/
def strValues (tms : List Tm) : List String :=
  tms.filterMap fun t =>
    match t.value with
    | .str s => some s
    | _ => none

/-- `TermFilteredPresearcher::convert_query_to_document`: select the
necessary terms of the sub-query's AST, group them by field, and emit —
per field — a text blob of the distinct term values for a `Str` field, the
literal `true` for the reserved bool `anyterm` field, and nothing for any
other field type (silently skipped). -/
def convertQueryToDocument (f : QTree → ℚ) (schema : Schema) (q : Qry) :
    SynthDoc :=
  let sel := selectTerms f schema.anyterm (toAst q)
  let fields := (sel.map Tm.field).dedup
  fields.filterMap fun fl =>
    match schema.ftype fl with
    | .strT _ => some (fl, .text (strValues ((sel.filter fun t => t.field = fl).dedup)))
    | .boolT => if fl = schema.anyterm then some (fl, .boolI true) else none
    | .u64T => none

/-! ## TfIdf scorer state (`src/presearcher/scorer.rs`) -/

/-- `TfIdfScorer`: atomic token and document counters plus the concurrent
term-frequency map, modelled as an association list. -/
structure TfIdfState where
  token_count : Nat
  document_count : Nat
  term_frequencies : List (Tm × Nat)
deriving DecidableEq, Repr

/-- `TfIdfScorer::add_document_count`. -/
def addDocumentCount (st : TfIdfState) : TfIdfState :=
  { st with document_count := st.document_count + 1 }

/-- One `term_frequencies.entry(term)` update: occupied entries are
incremented in place, vacant entries start at 1. -/
def bumpFreq : List (Tm × Nat) → Tm → List (Tm × Nat)
  | [], t => [(t, 1)]
  | (t', n) :: rest, t =>
      if t' = t then (t', n + 1) :: rest else (t', n) :: bumpFreq rest t

/-- `TfIdfScorer::add_term`: bump the token counter and the term's
frequency. -/
def addTerm (st : TfIdfState) (t : Tm) : TfIdfState :=
  { st with
      token_count := st.token_count + 1
      term_frequencies := bumpFreq st.term_frequencies t }

/-- `Bm25StatisticsProvider::doc_freq` for `TfIdfScorer`: the stored
frequency, or 0 for an absent term. -/
def docFreq (st : TfIdfState) (t : Tm) : Nat :=
  match st.term_frequencies.find? fun e => e.1 = t with
  | some e => e.2
  | none => 0

/-! ## Document → candidate-selection query
(`TermFilteredPresearcher::convert_document_to_query`) -/

/-- The unified error taxonomy (`TantivyError` kinds the matching core
raises). -/
inductive Err where
  | invalidArgument
  | schemaError
  | indexError
deriving DecidableEq, Repr

/-- The per-field loop of `convert_document_to_query`: for each document
field in order, resolve the field's indexing options and tokenizer, fail
with `InvalidArgument` when the options are missing, the tokenizer is
unknown, or a text field holds a non-string value; otherwise tokenize and
record each token as a term (feeding `add_term`); non-text fields are
skipped.  The scorer state mutated so far survives an error. -/
def collectDocTerms (schema : Schema) (tokm : TokMgr) :
    Doc → TfIdfState → List Tm → TfIdfState × Except Err (List Tm)
  | [], st, acc => (st, .ok acc)
  | (fl, v) :: rest, st, acc =>
      match schema.ftype fl with
      | .strT indexing =>
          match indexing with
          | none => (st, .error .invalidArgument)
          | some tname =>
              match tokm tname with
              | none => (st, .error .invalidArgument)
              | some tk =>
                  match v with
                  | .str s =>
                      let terms := (tk s).map fun x => Tm.mk fl (.str x)
                      collectDocTerms schema tokm rest (terms.foldl addTerm st)
                        (acc ++ terms)
                  | _ => (st, .error .invalidArgument)
      | _ => collectDocTerms schema tokm rest st acc

/-- `TermFilteredPresearcher::convert_document_to_query`: bump the
document counter first, then collect the document's terms, and combine
them into `TermSet OR Term(__anytermfield__, true)`. -/
def convertDocumentToQuery (st : TfIdfState) (schema : Schema)
    (tokm : TokMgr) (d : Doc) : TfIdfState × Except Err Qry :=
  let st1 := addDocumentCount st
  match collectDocTerms schema tokm d st1 [] with
  | (st2, .error e) => (st2, .error e)
  | (st2, .ok terms) =>
      (st2, .ok (.boolean
        [(Occur.should, .termSet terms),
         (Occur.should, .term ⟨schema.anyterm, .boolV true⟩)]))

/-! ## Monitor (`src/monitor/mod.rs`, `src/monitor/matcher.rs`) -/

/-- `PresearcherMetrics`. -/
structure Metrics where
  total_queries : Nat
  prospective_queries : Nat
  actual_matches : Nat
deriving DecidableEq, Repr

/-- The monitor's state: the query index (each synthetic document paired
with its stamped `__monitor_query_id__`), the query store
(id → registered query, insertion-only), and the shared scorer. -/
structure MonState where
  queryIndex : List (SynthDoc × Nat)
  queryStore : List (Nat × Qry)
  scorer : TfIdfState

/-- `DashMap::get` on the query store. -/
def storeLookup (store : List (Nat × Qry)) (id : Nat) : Option Qry :=
  (store.find? fun e => e.1 = id).map Prod.snd

/-- `DashMap::insert` on the query store: replaces any entry of the same
id. -/
def storeInsert (store : List (Nat × Qry)) (id : Nat) (q : Qry) :
    List (Nat × Qry) :=
  (id, q) :: store.filter fun e => ¬e.1 = id

/-- `Monitor::register_query`: decompose, convert every sub-query into a
synthetic document stamped with the query id, append them to the query
index, and insert the registered query into the store. -/
def registerQuery (f : QTree → ℚ) (schema : Schema) (st : MonState)
    (id : Nat) (q : Qry) : MonState :=
  let subs := decompose q
  let entries := subs.map fun s => (convertQueryToDocument f schema s, id)
  { st with
      queryIndex := st.queryIndex ++ entries
      queryStore := storeInsert st.queryStore id q }

/-- Phase 2 of `MonitorMatcher::match_document` for one candidate id: look
the registered query up and run it against the ephemeral single-document
index. -/
def phase2Hit (store : List (Nat × Qry)) (schema : Schema) (tokm : TokMgr)
    (d : Doc) (id : Nat) : Bool :=
  match storeLookup store id with
  | some q => qryMatches q (indexUserDoc schema tokm d)
  | none => false

/-- `MonitorMatcher::match_document`: record the store size, convert the
document into the candidate-selection query (mutating the scorer), collect
the Phase-1 candidate ids (each hit synthetic document's stamped id,
retained only when present in the store, deduplicated), re-evaluate each
candidate's original query against the single-document index, and emit the
matched ids together with the metrics. -/
def matchDocument (schema : Schema) (tokm : TokMgr) (st : MonState)
    (d : Doc) : TfIdfState × Except Err (Finset Nat × Metrics) :=
  let total := st.queryStore.length
  match convertDocumentToQuery st.scorer schema tokm d with
  | (sc, .error e) => (sc, .error e)
  | (sc, .ok dq) =>
      let hits := st.queryIndex.filter fun e => qryMatches dq (indexSynth e.1)
      let candidates : Finset Nat :=
        ((hits.map Prod.snd).filter fun id =>
            (storeLookup st.queryStore id).isSome).toFinset
      let result := candidates.filter fun id =>
        phase2Hit st.queryStore schema tokm d id = true
      (sc, .ok (result, ⟨total, candidates.card, result.card⟩))

/-! ## TfIdf selectivity scoring (`src/presearcher/scorer.rs`)

`f32` scores are modelled by `ℝ` and `f32::ln` by `Real.log`.  The code
asserts `doc_count >= doc_freq` before subtracting; the model's natural
subtraction agrees with the machine subtraction exactly on that asserted
domain. -/

/-- `idf(doc_freq, doc_count) = ln(1 + (doc_count − doc_freq + 0.5) /
(doc_freq + 0.5))`. -/
noncomputable def idf (doc_freq doc_count : Nat) : ℝ :=
  Real.log (1 + (((doc_count - doc_freq : Nat) : ℝ) + 1 / 2) / ((doc_freq : ℝ) + 1 / 2))

mutual

/-- `TfIdfScorer::score`: a term scores `idf` of its stored frequency
against the document count (`doc_freq` and `total_num_docs` never fail
for `TfIdfScorer`); a conjunction folds its children from the initial
accumulator `0.0` keeping the larger score; a disjunction folds from
`1.0` keeping the smaller; `AnyTerm` scores `-1.0`. -/
noncomputable def tfScore (st : TfIdfState) : QTree → ℝ
  | .conjunction trees => tfConjFold st trees 0
  | .disjunction trees => tfDisjFold st trees 1
  | .term t => idf (docFreq st t) st.document_count
  | .anyTerm => -1

/-- The conjunction fold of `TfIdfScorer::score`:
`trees.iter().fold(0.0, |max_score, tree| if max_score < tree_score
{ tree_score } else { max_score })`. -/
noncomputable def tfConjFold (st : TfIdfState) : List QTree → ℝ → ℝ
  | [], acc => acc
  | t :: ts, acc =>
      tfConjFold st ts (if acc < tfScore st t then tfScore st t else acc)

/-- The disjunction fold of `TfIdfScorer::score`:
`trees.iter().fold(1.0, |min_score, tree| if min_score > tree_score
{ tree_score } else { min_score })`. -/
noncomputable def tfDisjFold (st : TfIdfState) : List QTree → ℝ → ℝ
  | [], acc => acc
  | t :: ts, acc =>
      tfDisjFold st ts (if tfScore st t < acc then tfScore st t else acc)

end

/-- The synthetic document populates the reserved `__anytermfield__` flag
(carries the bool value `true` on the anyterm field). -/
def hasAnytermFlag (schema : Schema) (sd : SynthDoc) : Bool :=
  sd.any fun e => e.1 = schema.anyterm && e.2 = IVal.boolI true

/-- The synthetic document carries at least one indexed term in a user
field: a text value with a nonempty token list on a field other than the
reserved anyterm field. -/
def hasUserTerm (schema : Schema) (sd : SynthDoc) : Bool :=
  sd.any fun e =>
    !(e.1 = schema.anyterm) &&
      match e.2 with
      | .text ts => !ts.isEmpty
      | .boolI _ => false

/-! ## Basic lemmas -/

theorem isEmpty_eq_false_iff {α : Type} {l : List α} :
    l.isEmpty = false ↔ l ≠ [] := by
  cases l <;> simp

theorem decompose_boolean_eq (clauses : List (Occur × Qry)) :
    decompose (.boolean clauses) = decomposeBoolean clauses := by
  rw [decompose, decomposeBoolean]

/-! ## C6 — verbatim emission of conjunction-like booleans -/

/-- C6: when a boolean query has more than one `Must` child, or exactly one
`Must` child with at least one sub-query already produced in this scope by
its `Should` children, the whole boolean is appended verbatim as one atomic
sub-query after the `Should` outputs, and nothing further — in particular
no `MustNot` wrapping of the scope — is emitted for it. -/
theorem decompose_boolean_verbatim (clauses : List (Occur × Qry))
    (h : 1 < (mustsOf clauses).length ∨
      ((mustsOf clauses).length = 1 ∧ shouldOutputs clauses ≠ [])) :
    decompose (.boolean clauses) = shouldOutputs clauses ++ [.boolean clauses] := by
  rw [decompose_boolean_eq, decomposeBoolean]
  rw [if_pos]
  rcases h with h | ⟨h1, h2⟩
  · exact Or.inl h
  · exact Or.inr ⟨h1, by simpa [List.isEmpty_iff] using h2⟩

/-- Witness for C6 at a boolean with two `Must` term children. -/
theorem decompose_boolean_verbatim_witness :
    decompose (.boolean [(Occur.must, .term ⟨0, .str "a"⟩),
        (Occur.must, .term ⟨0, .str "b"⟩)]) =
      shouldOutputs [(Occur.must, .term ⟨0, .str "a"⟩),
        (Occur.must, .term ⟨0, .str "b"⟩)] ++
      [.boolean [(Occur.must, .term ⟨0, .str "a"⟩),
        (Occur.must, .term ⟨0, .str "b"⟩)]] :=
  decompose_boolean_verbatim _ (Or.inl (by decide))

/-! ## C7 — `MustNot`-only booleans emit nothing -/

theorem shouldOutputs_of_all_mustNot {clauses : List (Occur × Qry)}
    (h : ∀ c ∈ clauses, c.1 = Occur.mustNot) : shouldOutputs clauses = [] := by
  induction clauses with
  | nil => simp [shouldOutputs]
  | cons c rest ih =>
      obtain ⟨o, q⟩ := c
      have ho := h (o, q) (List.mem_cons_self _ _)
      simp only at ho
      subst ho
      rw [show shouldOutputs ((Occur.mustNot, q) :: rest) = shouldOutputs rest
        from by simp [shouldOutputs]]
      exact ih fun c hc => h c (List.mem_cons_of_mem _ hc)

/-- C7: decomposing a boolean whose children are all `MustNot` (no `Should`
and no `Must` children) emits no sub-queries. -/
theorem decompose_mustNot_only (clauses : List (Occur × Qry))
    (h : ∀ c ∈ clauses, c.1 = Occur.mustNot) :
    decompose (.boolean clauses) = [] := by
  have hm : mustsOf clauses = [] := by
    rw [mustsOf, List.filterMap_eq_nil]
    intro c hc
    rw [h c hc]
    simp
  have hs := shouldOutputs_of_all_mustNot h
  rw [decompose_boolean_eq, decomposeBoolean]
  rw [hm, hs]
  simp only [List.length_nil, List.isEmpty_nil]
  rw [if_neg (by simp)]
  simp only [List.nil_append, if_neg (by simp : ¬(0 = 1))]
  split
  · rfl
  · simp

/-- Witness for C7 at a boolean with a single `MustNot` term child. -/
theorem decompose_mustNot_only_witness :
    decompose (.boolean [(Occur.mustNot, .term ⟨0, .str "girl"⟩)]) = [] :=
  decompose_mustNot_only _ (by decide)

/-! ## C8 — boost decomposition -/

/-- C8: decomposing `Boost(q, 1.0)` produces exactly the decomposition of
`q` itself; for any other factor the decomposer recurses and wraps every
sub-query produced in this scope in `Boost(·, factor)`. -/
theorem decompose_boost_spec (q : Qry) (f : ℚ) :
    decompose (.boost q 1) = decompose q ∧
      (f ≠ 1 → decompose (.boost q f) = (decompose q).map fun s => .boost s f) := by
  constructor
  · simp [decompose]
  · intro h
    simp [decompose, h]

/-- Witness for C8 at a term query with factors `1` and `2`. -/
theorem decompose_boost_spec_witness :
    decompose (.boost (.term ⟨0, .str "barack"⟩) 1) =
        decompose (.term ⟨0, .str "barack"⟩) ∧
      decompose (.boost (.term ⟨0, .str "barack"⟩) 2) =
        (decompose (.term ⟨0, .str "barack"⟩)).map fun s => .boost s 2 :=
  ⟨(decompose_boost_spec _ 2).1, (decompose_boost_spec _ 2).2 (by norm_num)⟩

/-! ## C9 — `idf` is antitone in `doc_freq` and nonnegative -/

/-- C9: for a fixed corpus size `n`, `idf` is monotonically non-increasing
in `doc_freq` on the asserted domain `doc_freq ≤ n`, and nonnegative there
(`f32` arithmetic modelled over `ℝ`). -/
theorem idf_antitone_nonneg (dfa dfb n : Nat) (h1 : dfa ≤ dfb)
    (h2 : dfb ≤ n) : idf dfb n ≤ idf dfa n ∧ 0 ≤ idf dfb n := by
  have hb : (0 : ℝ) ≤ (((n - dfb : Nat) : ℝ) + 1 / 2) / ((dfb : ℝ) + 1 / 2) := by
    positivity
  refine ⟨?_, ?_⟩
  · rw [idf, idf]
    apply Real.log_le_log (by linarith)
    have hnum : (((n - dfb : Nat) : ℝ)) ≤ ((n - dfa : Nat) : ℝ) := by
      exact_mod_cast Nat.sub_le_sub_left h1 n
    have hden : ((dfa : ℝ)) ≤ (dfb : ℝ) := by exact_mod_cast h1
    have hdiv : (((n - dfb : Nat) : ℝ) + 1 / 2) / ((dfb : ℝ) + 1 / 2) ≤
        (((n - dfa : Nat) : ℝ) + 1 / 2) / ((dfa : ℝ) + 1 / 2) :=
      div_le_div₀ (by positivity) (by linarith) (by positivity) (by linarith)
    linarith
  · rw [idf]
    exact Real.log_nonneg (by linarith)

/-- Witness for C9 at `doc_freq` 1 and 2 against 3 documents. -/
theorem idf_antitone_nonneg_witness : idf 2 3 ≤ idf 1 3 ∧ 0 ≤ idf 2 3 :=
  idf_antitone_nonneg 1 2 3 (by norm_num) (by norm_num)

/-! ## C10 — the document counter rises before any field is inspected -/

theorem foldl_addTerm_document_count (l : List Tm) (st : TfIdfState) :
    (l.foldl addTerm st).document_count = st.document_count := by
  induction l generalizing st with
  | nil => rfl
  | cons t ts ih => rw [List.foldl_cons, ih]; rfl

theorem collectDocTerms_document_count (schema : Schema) (tokm : TokMgr)
    (d : Doc) : ∀ (st : TfIdfState) (acc : List Tm),
    (collectDocTerms schema tokm d st acc).1.document_count =
      st.document_count := by
  induction d with
  | nil => intro st acc; rfl
  | cons e rest ih =>
      intro st acc
      obtain ⟨fl, v⟩ := e
      rw [collectDocTerms]
      rcases hft : schema.ftype fl with ind | _ | _
      · rcases ind with _ | tname
        · simp
        · rcases htk : tokm tname with _ | tk
          · simp [htk]
          · rcases v with s | b | u
            · simp [htk, ih, foldl_addTerm_document_count]
            · simp [htk]
            · simp [htk]
      · simp [ih]
      · simp [ih]

/-- C10: `convert_document_to_query` increments the scorer's document count
before inspecting any field, so the corpus statistics are mutated even for
documents on which the conversion later fails — the final scorer state
always carries `document_count + 1` and never equals the initial state. -/
theorem convertDocumentToQuery_counts_first (st : TfIdfState)
    (schema : Schema) (tokm : TokMgr) (d : Doc) :
    (convertDocumentToQuery st schema tokm d).1.document_count =
        st.document_count + 1 ∧
      (convertDocumentToQuery st schema tokm d).1 ≠ st := by
  have key : (convertDocumentToQuery st schema tokm d).1.document_count =
      st.document_count + 1 := by
    rw [convertDocumentToQuery]
    rcases hc : collectDocTerms schema tokm d (addDocumentCount st) [] with ⟨st2, r⟩
    have := collectDocTerms_document_count schema tokm d (addDocumentCount st) []
    rw [hc] at this
    rcases r with e | terms
    · simpa [addDocumentCount] using this
    · simpa [addDocumentCount] using this
  refine ⟨key, fun heq => ?_⟩
  rw [heq] at key
  omega

/-! ## C3 — the shape of `TfIdfScorer::score`

The folds start from the accumulators `0.0` (conjunction) and `1.0`
(disjunction), so the result is clamped: a conjunction scores
`max 0 (maximum child score)` and a disjunction
`min 1 (minimum child score)`, not the bare maximum/minimum. -/

theorem tfConjFold_spec (st : TfIdfState) (l : List QTree) : ∀ acc : ℝ,
    (tfConjFold st l acc = acc ∧ ∀ u ∈ l, tfScore st u ≤ acc) ∨
      (∃ u ∈ l, tfConjFold st l acc = tfScore st u ∧ acc ≤ tfScore st u ∧
        ∀ v ∈ l, tfScore st v ≤ tfScore st u) := by
  induction l with
  | nil => intro acc; left; exact ⟨by rw [tfConjFold], by simp⟩
  | cons t ts ih =>
      intro acc
      have hfold : tfConjFold st (t :: ts) acc =
          tfConjFold st ts (if acc < tfScore st t then tfScore st t else acc) := by
        rw [tfConjFold]
      by_cases hlt : acc < tfScore st t
      · rw [if_pos hlt] at hfold
        rcases ih (tfScore st t) with ⟨heq, hall⟩ | ⟨u, hu, heq, hacc, hall⟩
        · right
          refine ⟨t, List.mem_cons_self _ _, by rw [hfold, heq], le_of_lt hlt, ?_⟩
          intro v hv
          rcases List.mem_cons.1 hv with rfl | hv
          · exact le_refl _
          · exact hall v hv
        · right
          refine ⟨u, List.mem_cons_of_mem _ hu, by rw [hfold, heq],
            le_trans (le_of_lt hlt) hacc, ?_⟩
          intro v hv
          rcases List.mem_cons.1 hv with rfl | hv
          · exact hacc
          · exact hall v hv
      · rw [if_neg hlt] at hfold
        have hle : tfScore st t ≤ acc := not_lt.1 hlt
        rcases ih acc with ⟨heq, hall⟩ | ⟨u, hu, heq, hacc, hall⟩
        · left
          refine ⟨by rw [hfold, heq], ?_⟩
          intro v hv
          rcases List.mem_cons.1 hv with rfl | hv
          · exact hle
          · exact hall v hv
        · right
          refine ⟨u, List.mem_cons_of_mem _ hu, by rw [hfold, heq], hacc, ?_⟩
          intro v hv
          rcases List.mem_cons.1 hv with rfl | hv
          · exact le_trans hle hacc
          · exact hall v hv

theorem tfDisjFold_spec (st : TfIdfState) (l : List QTree) : ∀ acc : ℝ,
    (tfDisjFold st l acc = acc ∧ ∀ u ∈ l, acc ≤ tfScore st u) ∨
      (∃ u ∈ l, tfDisjFold st l acc = tfScore st u ∧ tfScore st u ≤ acc ∧
        ∀ v ∈ l, tfScore st u ≤ tfScore st v) := by
  induction l with
  | nil => intro acc; left; exact ⟨by rw [tfDisjFold], by simp⟩
  | cons t ts ih =>
      intro acc
      have hfold : tfDisjFold st (t :: ts) acc =
          tfDisjFold st ts (if tfScore st t < acc then tfScore st t else acc) := by
        rw [tfDisjFold]
      by_cases hlt : tfScore st t < acc
      · rw [if_pos hlt] at hfold
        rcases ih (tfScore st t) with ⟨heq, hall⟩ | ⟨u, hu, heq, hacc, hall⟩
        · right
          refine ⟨t, List.mem_cons_self _ _, by rw [hfold, heq], le_of_lt hlt, ?_⟩
          intro v hv
          rcases List.mem_cons.1 hv with rfl | hv
          · exact le_refl _
          · exact hall v hv
        · right
          refine ⟨u, List.mem_cons_of_mem _ hu, by rw [hfold, heq],
            le_trans hacc (le_of_lt hlt), ?_⟩
          intro v hv
          rcases List.mem_cons.1 hv with rfl | hv
          · exact hacc
          · exact hall v hv
      · rw [if_neg hlt] at hfold
        have hle : acc ≤ tfScore st t := not_lt.1 hlt
        rcases ih acc with ⟨heq, hall⟩ | ⟨u, hu, heq, hacc, hall⟩
        · left
          refine ⟨by rw [hfold, heq], ?_⟩
          intro v hv
          rcases List.mem_cons.1 hv with rfl | hv
          · exact hle
          · exact hall v hv
        · right
          refine ⟨u, List.mem_cons_of_mem _ hu, by rw [hfold, heq], hacc, ?_⟩
          intro v hv
          rcases List.mem_cons.1 hv with rfl | hv
          · exact le_trans hacc hle
          · exact hall v hv

/-- Counterexample to C3 as stated: on `Conjunction([AnyTerm])` the scorer
returns `0`, not the maximum child score `-1` — the conjunction fold's
initial accumulator `0.0` clamps the result from below (dually, the
disjunction fold's `1.0` clamps from above). -/
theorem tfScore_conjunction_counterexample :
    tfScore ⟨0, 0, []⟩ (QTree.conjunction [QTree.anyTerm]) = 0 ∧
      tfScore ⟨0, 0, []⟩ QTree.anyTerm = -1 ∧
      tfScore ⟨0, 0, []⟩ (QTree.conjunction [QTree.anyTerm]) ≠
        tfScore ⟨0, 0, []⟩ QTree.anyTerm := by
  have h1 : tfScore ⟨0, 0, []⟩ (QTree.conjunction [QTree.anyTerm]) = 0 := by
    rw [tfScore, tfConjFold, tfScore, tfConjFold]
    norm_num
  have h2 : tfScore ⟨0, 0, []⟩ QTree.anyTerm = -1 := by rw [tfScore]
  exact ⟨h1, h2, by rw [h1, h2]; norm_num⟩

/-- C3 (amended): `TfIdfScorer::score` maps a `Term` to
`idf(doc_freq, total_docs)`, `AnyTerm` to `-1.0`, a `Conjunction` to the
maximum of its children's scores *and the initial accumulator `0.0`*
(either every child scores `≤ 0` and the result is `0`, or the result is
the score of a maximal child, which is `≥ 0`), and a `Disjunction` to the
minimum of its children's scores *and the initial accumulator `1.0`*. -/
theorem tfScore_spec (st : TfIdfState) (l : List QTree) (t : Tm) :
    ((tfScore st (.conjunction l) = 0 ∧ ∀ u ∈ l, tfScore st u ≤ 0) ∨
      (∃ u ∈ l, tfScore st (.conjunction l) = tfScore st u ∧
        0 ≤ tfScore st u ∧ ∀ v ∈ l, tfScore st v ≤ tfScore st u)) ∧
    ((tfScore st (.disjunction l) = 1 ∧ ∀ u ∈ l, 1 ≤ tfScore st u) ∨
      (∃ u ∈ l, tfScore st (.disjunction l) = tfScore st u ∧
        tfScore st u ≤ 1 ∧ ∀ v ∈ l, tfScore st u ≤ tfScore st v)) ∧
    tfScore st (.term t) = idf (docFreq st t) st.document_count ∧
    tfScore st .anyTerm = -1 := by
  refine ⟨?_, ?_, by rw [tfScore], by rw [tfScore]⟩
  · rw [show tfScore st (.conjunction l) = tfConjFold st l 0 from by rw [tfScore]]
    exact tfConjFold_spec st l 0
  · rw [show tfScore st (.disjunction l) = tfDisjFold st l 1 from by rw [tfScore]]
    exact tfDisjFold_spec st l 1

/-- Witness for C3 (amended) at the empty scorer state. -/
theorem tfScore_spec_witness :
    tfScore ⟨0, 0, []⟩ (QTree.term ⟨0, .str "a"⟩) = idf 0 0 ∧
      tfScore ⟨0, 0, []⟩ QTree.anyTerm = -1 :=
  ⟨(tfScore_spec ⟨0, 0, []⟩ [] ⟨0, .str "a"⟩).2.2.1,
    (tfScore_spec ⟨0, 0, []⟩ [] ⟨0, .str "a"⟩).2.2.2⟩

/-! ## C1 — Phase 2 confirms every returned id -/

theorem storeLookup_isSome_mem {store : List (Nat × Qry)} {id : Nat}
    (h : (storeLookup store id).isSome) : id ∈ store.map Prod.fst := by
  rw [storeLookup] at h
  rcases hf : store.find? fun e => e.1 = id with _ | e
  · rw [hf] at h; simp at h
  · have hmem := List.mem_of_find?_eq_some hf
    have hpred := List.find?_some hf
    simp only [decide_eq_true_eq] at hpred
    exact List.mem_map.2 ⟨e, hmem, hpred⟩

/-- C1: for every id in the final result set of a successful
`match_document(d)`, the registered query stored under that id matches the
single-document index built from `d` — Phase 2 re-runs the original query
against an index containing exactly `d` before admitting the id. -/
theorem match_document_no_false_positives (schema : Schema) (tokm : TokMgr)
    (st : MonState) (d : Doc) (sc : TfIdfState) (res : Finset Nat)
    (m : Metrics) (id : Nat)
    (hok : matchDocument schema tokm st d = (sc, .ok (res, m)))
    (hid : id ∈ res) :
    ∃ q, storeLookup st.queryStore id = some q ∧
      qryMatches q (indexUserDoc schema tokm d) = true := by
  rw [matchDocument] at hok
  rcases hcv : convertDocumentToQuery st.scorer schema tokm d with ⟨sc', r⟩
  rw [hcv] at hok
  rcases r with e | dq
  · exact absurd (congrArg (fun p => p.2) hok) (by simp)
  · simp only [Prod.mk.injEq, Except.ok.injEq] at hok
    obtain ⟨-, hres, -⟩ := hok
    rw [← hres] at hid
    have hid2 := (Finset.mem_filter.1 hid).2
    rw [phase2Hit] at hid2
    rcases hl : storeLookup st.queryStore id with _ | q
    · rw [hl] at hid2; simp at hid2
    · rw [hl] at hid2
      exact ⟨q, rfl, hid2⟩

/-- Witness for C1: a monitor holding the single registered query
`body:bloomberg` (id 0) matched against the document
`body:"bloomberg"`; id 0 is returned and the stored query matches the
single-document index. -/
theorem match_document_no_false_positives_witness :
    ∃ q, storeLookup [(0, Qry.term ⟨0, .str "bloomberg"⟩)] 0 = some q ∧
      qryMatches q
        (indexUserDoc ⟨fun _ => .strT (some "default"), 1⟩
          (fun _ => some fun s => [s]) [(0, .str "bloomberg")]) = true := by
  apply match_document_no_false_positives
    ⟨fun _ => .strT (some "default"), 1⟩ (fun _ => some fun s => [s])
    ⟨[([(0, IVal.text ["bloomberg"])], 0)], [(0, .term ⟨0, .str "bloomberg"⟩)],
      ⟨0, 0, []⟩⟩
    [(0, .str "bloomberg")] _ _ ⟨1, 1, 1⟩ 0 rfl
  decide

/-! ## C5 — metric inequalities -/

/-- C5: the metrics of a successful `match_document` satisfy
`actual_matches ≤ prospective_queries ≤ total_queries`: the result set is a
filter of the candidate set, and each candidate id passes the Phase-1
store-membership check. -/
theorem match_document_metrics (schema : Schema) (tokm : TokMgr)
    (st : MonState) (d : Doc) (sc : TfIdfState) (res : Finset Nat)
    (m : Metrics)
    (hok : matchDocument schema tokm st d = (sc, .ok (res, m))) :
    m.actual_matches ≤ m.prospective_queries ∧
      m.prospective_queries ≤ m.total_queries := by
  rw [matchDocument] at hok
  rcases hcv : convertDocumentToQuery st.scorer schema tokm d with ⟨sc', r⟩
  rw [hcv] at hok
  rcases r with e | dq
  · exact absurd (congrArg (fun p => p.2) hok) (by simp)
  · simp only [Prod.mk.injEq, Except.ok.injEq] at hok
    obtain ⟨-, -, hm⟩ := hok
    rw [← hm]
    constructor
    · exact Finset.card_filter_le _ _
    · show Finset.card _ ≤ st.queryStore.length
      calc Finset.card _ ≤ (st.queryStore.map Prod.fst).toFinset.card := by
            apply Finset.card_le_card
            intro id hid
            rw [List.mem_toFinset] at hid ⊢
            exact storeLookup_isSome_mem (List.mem_filter.1 hid).2
        _ ≤ (st.queryStore.map Prod.fst).length := (st.queryStore.map Prod.fst).toFinset_card_le
        _ = st.queryStore.length := List.length_map _ _

/-- Witness for C5 on the same one-query monitor as the C1 witness. -/
theorem match_document_metrics_witness :
    (1 : Nat) ≤ 1 ∧ (1 : Nat) ≤ 1 := by
  have h := match_document_metrics
    ⟨fun _ => .strT (some "default"), 1⟩ (fun _ => some fun s => [s])
    ⟨[([(0, IVal.text ["bloomberg"])], 0)], [(0, .term ⟨0, .str "bloomberg"⟩)],
      ⟨0, 0, []⟩⟩
    [(0, .str "bloomberg")] _ _ ⟨1, 1, 1⟩ rfl
  exact h


/-! ## Bridge lemmas for matching and decomposition -/

theorem sizeOf_snd_lt_of_mem {o : Occur} {q : Qry}
    {clauses : List (Occur × Qry)} (h : (o, q) ∈ clauses) :
    sizeOf q < sizeOf clauses := by
  have h1 := List.sizeOf_lt_of_mem h
  have h2 : sizeOf (o, q) = 1 + sizeOf o + sizeOf q := rfl
  omega

theorem mustsOf_cons_must {q : Qry} {rest : List (Occur × Qry)} :
    mustsOf ((Occur.must, q) :: rest) = q :: mustsOf rest := by simp [mustsOf]

theorem mustsOf_cons_should {q : Qry} {rest : List (Occur × Qry)} :
    mustsOf ((Occur.should, q) :: rest) = mustsOf rest := by simp [mustsOf]

theorem mustsOf_cons_mustNot {q : Qry} {rest : List (Occur × Qry)} :
    mustsOf ((Occur.mustNot, q) :: rest) = mustsOf rest := by simp [mustsOf]

theorem shouldsOf_cons_should {q : Qry} {rest : List (Occur × Qry)} :
    shouldsOf ((Occur.should, q) :: rest) = q :: shouldsOf rest := by
  simp [shouldsOf]

theorem shouldsOf_cons_must {q : Qry} {rest : List (Occur × Qry)} :
    shouldsOf ((Occur.must, q) :: rest) = shouldsOf rest := by simp [shouldsOf]

theorem shouldsOf_cons_mustNot {q : Qry} {rest : List (Occur × Qry)} :
    shouldsOf ((Occur.mustNot, q) :: rest) = shouldsOf rest := by
  simp [shouldsOf]

theorem mustNotsOf_cons_mustNot {q : Qry} {rest : List (Occur × Qry)} :
    mustNotsOf ((Occur.mustNot, q) :: rest) = q :: mustNotsOf rest := by
  simp [mustNotsOf]

theorem mustNotsOf_cons_must {q : Qry} {rest : List (Occur × Qry)} :
    mustNotsOf ((Occur.must, q) :: rest) = mustNotsOf rest := by
  simp [mustNotsOf]

theorem mustNotsOf_cons_should {q : Qry} {rest : List (Occur × Qry)} :
    mustNotsOf ((Occur.should, q) :: rest) = mustNotsOf rest := by
  simp [mustNotsOf]

theorem shouldOutputs_cons_should {q : Qry} {rest : List (Occur × Qry)} :
    shouldOutputs ((Occur.should, q) :: rest) =
      decompose q ++ shouldOutputs rest := by simp [shouldOutputs]

theorem shouldOutputs_cons_must {q : Qry} {rest : List (Occur × Qry)} :
    shouldOutputs ((Occur.must, q) :: rest) = shouldOutputs rest := by
  simp [shouldOutputs]

theorem shouldOutputs_cons_mustNot {q : Qry} {rest : List (Occur × Qry)} :
    shouldOutputs ((Occur.mustNot, q) :: rest) = shouldOutputs rest := by
  simp [shouldOutputs]

theorem mustOutputs_cons_must {q : Qry} {rest : List (Occur × Qry)} :
    mustOutputs ((Occur.must, q) :: rest) =
      decompose q ++ mustOutputs rest := by simp [mustOutputs]

theorem mustOutputs_cons_should {q : Qry} {rest : List (Occur × Qry)} :
    mustOutputs ((Occur.should, q) :: rest) = mustOutputs rest := by
  simp [mustOutputs]

theorem mustOutputs_cons_mustNot {q : Qry} {rest : List (Occur × Qry)} :
    mustOutputs ((Occur.mustNot, q) :: rest) = mustOutputs rest := by
  simp [mustOutputs]

theorem mem_mustsOf {q : Qry} {clauses : List (Occur × Qry)}
    (h : q ∈ mustsOf clauses) : (Occur.must, q) ∈ clauses := by
  rw [mustsOf] at h
  obtain ⟨⟨o, q'⟩, hc, heq⟩ := List.mem_filterMap.1 h
  by_cases h1 : o = Occur.must
  · subst h1
    simp only [if_pos] at heq
    have : q' = q := by simpa using heq
    subst this
    exact hc
  · simp [h1] at heq

theorem mem_shouldsOf {q : Qry} {clauses : List (Occur × Qry)}
    (h : q ∈ shouldsOf clauses) : (Occur.should, q) ∈ clauses := by
  rw [shouldsOf] at h
  obtain ⟨⟨o, q'⟩, hc, heq⟩ := List.mem_filterMap.1 h
  by_cases h1 : o = Occur.should
  · subst h1
    have : q' = q := by simpa using heq
    subst this
    exact hc
  · simp [h1] at heq

theorem anyMatches_iff {qs : List Qry} {dd : IndexedDoc} :
    anyMatches qs dd = true ↔ ∃ q ∈ qs, qryMatches q dd = true := by
  induction qs with
  | nil => rw [anyMatches]; simp
  | cons q rest ih =>
      rw [show anyMatches (q :: rest) dd =
          (qryMatches q dd || anyMatches rest dd) from by rw [anyMatches]]
      rw [Bool.or_eq_true, ih]
      constructor
      · rintro (h | ⟨q', hq', h⟩)
        · exact ⟨q, List.mem_cons_self _ _, h⟩
        · exact ⟨q', List.mem_cons_of_mem _ hq', h⟩
      · rintro ⟨q', hq', h⟩
        rcases List.mem_cons.1 hq' with rfl | hq'
        · exact Or.inl h
        · exact Or.inr ⟨q', hq', h⟩

theorem allMustMatch_iff {clauses : List (Occur × Qry)} {dd : IndexedDoc} :
    allMustMatch clauses dd = true ↔
      ∀ q ∈ mustsOf clauses, qryMatches q dd = true := by
  induction clauses with
  | nil => rw [allMustMatch]; simp [mustsOf]
  | cons c rest ih =>
      obtain ⟨o, q⟩ := c
      cases o with
      | must =>
          rw [show allMustMatch ((Occur.must, q) :: rest) dd =
              (qryMatches q dd && allMustMatch rest dd) from by
            simp [allMustMatch]]
          rw [Bool.and_eq_true, ih, mustsOf_cons_must]
          simp
      | should =>
          rw [show allMustMatch ((Occur.should, q) :: rest) dd =
              allMustMatch rest dd from by simp [allMustMatch]]
          rw [ih, mustsOf_cons_should]
      | mustNot =>
          rw [show allMustMatch ((Occur.mustNot, q) :: rest) dd =
              allMustMatch rest dd from by simp [allMustMatch]]
          rw [ih, mustsOf_cons_mustNot]

theorem noMustNotMatch_iff {clauses : List (Occur × Qry)} {dd : IndexedDoc} :
    noMustNotMatch clauses dd = true ↔
      ∀ q ∈ mustNotsOf clauses, qryMatches q dd = false := by
  induction clauses with
  | nil => rw [noMustNotMatch]; simp [mustNotsOf]
  | cons c rest ih =>
      obtain ⟨o, q⟩ := c
      cases o with
      | mustNot =>
          rw [show noMustNotMatch ((Occur.mustNot, q) :: rest) dd =
              (!qryMatches q dd && noMustNotMatch rest dd) from by
            simp [noMustNotMatch]]
          rw [Bool.and_eq_true, ih, mustNotsOf_cons_mustNot]
          simp
      | should =>
          rw [show noMustNotMatch ((Occur.should, q) :: rest) dd =
              noMustNotMatch rest dd from by simp [noMustNotMatch]]
          rw [ih, mustNotsOf_cons_should]
      | must =>
          rw [show noMustNotMatch ((Occur.must, q) :: rest) dd =
              noMustNotMatch rest dd from by simp [noMustNotMatch]]
          rw [ih, mustNotsOf_cons_must]

theorem anyShouldMatch_iff {clauses : List (Occur × Qry)} {dd : IndexedDoc} :
    anyShouldMatch clauses dd = true ↔
      ∃ q ∈ shouldsOf clauses, qryMatches q dd = true := by
  induction clauses with
  | nil => rw [anyShouldMatch]; simp [shouldsOf]
  | cons c rest ih =>
      obtain ⟨o, q⟩ := c
      cases o with
      | should =>
          rw [show anyShouldMatch ((Occur.should, q) :: rest) dd =
              (qryMatches q dd || anyShouldMatch rest dd) from by
            simp [anyShouldMatch]]
          rw [Bool.or_eq_true, ih, shouldsOf_cons_should]
          constructor
          · rintro (h | ⟨q', hq', h⟩)
            · exact ⟨q, List.mem_cons_self _ _, h⟩
            · exact ⟨q', List.mem_cons_of_mem _ hq', h⟩
          · rintro ⟨q', hq', h⟩
            rcases List.mem_cons.1 hq' with rfl | hq'
            · exact Or.inl h
            · exact Or.inr ⟨q', hq', h⟩
      | must =>
          rw [show anyShouldMatch ((Occur.must, q) :: rest) dd =
              anyShouldMatch rest dd from by simp [anyShouldMatch]]
          rw [ih, shouldsOf_cons_must]
      | mustNot =>
          rw [show anyShouldMatch ((Occur.mustNot, q) :: rest) dd =
              anyShouldMatch rest dd from by simp [anyShouldMatch]]
          rw [ih, shouldsOf_cons_mustNot]

theorem qryMatches_boolean {clauses : List (Occur × Qry)} {dd : IndexedDoc} :
    qryMatches (.boolean clauses) dd = true ↔
      (∀ q ∈ mustsOf clauses, qryMatches q dd = true) ∧
      (∀ q ∈ mustNotsOf clauses, qryMatches q dd = false) ∧
      (mustsOf clauses ≠ [] ∨ ∃ q ∈ shouldsOf clauses, qryMatches q dd = true) := by
  rw [show qryMatches (.boolean clauses) dd =
      (allMustMatch clauses dd && noMustNotMatch clauses dd &&
        (!(mustsOf clauses).isEmpty || anyShouldMatch clauses dd)) from by
    rw [qryMatches]]
  rw [Bool.and_eq_true, Bool.and_eq_true, Bool.or_eq_true,
    allMustMatch_iff, noMustNotMatch_iff, anyShouldMatch_iff]
  constructor
  · rintro ⟨⟨hM, hN⟩, hOr⟩
    refine ⟨hM, hN, ?_⟩
    rcases hOr with h | h
    · left
      intro hnil
      rw [hnil] at h
      simp at h
    · exact Or.inr h
  · rintro ⟨hM, hN, hOr⟩
    refine ⟨⟨hM, hN⟩, ?_⟩
    rcases hOr with h | h
    · left
      simpa [isEmpty_eq_false_iff] using h
    · exact Or.inr h

theorem mem_decomposeList {s q : Qry} {qs : List Qry} (hq : q ∈ qs)
    (hs : s ∈ decompose q) : s ∈ decomposeList qs := by
  induction qs with
  | nil => cases hq
  | cons q' rest ih =>
      rw [show decomposeList (q' :: rest) = decompose q' ++ decomposeList rest
        from by rw [decomposeList]]
      rw [List.mem_append]
      rcases List.mem_cons.1 hq with rfl | hq
      · exact Or.inl hs
      · exact Or.inr (ih hq)

theorem mem_shouldOutputs {s q : Qry} {clauses : List (Occur × Qry)}
    (hq : q ∈ shouldsOf clauses) (hs : s ∈ decompose q) :
    s ∈ shouldOutputs clauses := by
  induction clauses with
  | nil => simp [shouldsOf] at hq
  | cons c rest ih =>
      obtain ⟨o, q'⟩ := c
      cases o with
      | should =>
          rw [shouldsOf_cons_should] at hq
          rw [shouldOutputs_cons_should, List.mem_append]
          rcases List.mem_cons.1 hq with rfl | hq
          · exact Or.inl hs
          · exact Or.inr (ih hq)
      | must =>
          rw [shouldsOf_cons_must] at hq
          rw [shouldOutputs_cons_must]
          exact ih hq
      | mustNot =>
          rw [shouldsOf_cons_mustNot] at hq
          rw [shouldOutputs_cons_mustNot]
          exact ih hq

theorem mustOutputs_of_mustsOf_nil {clauses : List (Occur × Qry)}
    (h : mustsOf clauses = []) : mustOutputs clauses = [] := by
  induction clauses with
  | nil => rw [mustOutputs]
  | cons c rest ih =>
      obtain ⟨o, q⟩ := c
      cases o with
      | must => rw [mustsOf_cons_must] at h; cases h
      | should =>
          rw [mustsOf_cons_should] at h
          rw [mustOutputs_cons_should]
          exact ih h
      | mustNot =>
          rw [mustsOf_cons_mustNot] at h
          rw [mustOutputs_cons_mustNot]
          exact ih h

theorem mustOutputs_single {m : Qry} {clauses : List (Occur × Qry)}
    (h : mustsOf clauses = [m]) : mustOutputs clauses = decompose m := by
  induction clauses with
  | nil => simp [mustsOf] at h
  | cons c rest ih =>
      obtain ⟨o, q⟩ := c
      cases o with
      | must =>
          rw [mustsOf_cons_must] at h
          have h1 : q = m := (List.cons.injEq _ _ _ _ ▸ h).1
          have h2 : mustsOf rest = [] := (List.cons.injEq _ _ _ _ ▸ h).2
          subst h1
          rw [mustOutputs_cons_must, mustOutputs_of_mustsOf_nil h2,
            List.append_nil]
      | should =>
          rw [mustsOf_cons_should] at h
          rw [mustOutputs_cons_should]
          exact ih h
      | mustNot =>
          rw [mustsOf_cons_mustNot] at h
          rw [mustOutputs_cons_mustNot]
          exact ih h

theorem mustsOf_map_mustNot (ns : List Qry) :
    mustsOf (ns.map fun e => (Occur.mustNot, e)) = [] := by
  induction ns with
  | nil => simp [mustsOf]
  | cons n rest ih => rw [List.map_cons, mustsOf_cons_mustNot]; exact ih

theorem mustNotsOf_map_mustNot (ns : List Qry) :
    mustNotsOf (ns.map fun e => (Occur.mustNot, e)) = ns := by
  induction ns with
  | nil => simp [mustNotsOf]
  | cons n rest ih => rw [List.map_cons, mustNotsOf_cons_mustNot, ih]

/-- A sub-query wrapped with the scope's `MustNot` exclusions matches iff
the sub-query matches and no exclusion does. -/
theorem qryMatches_wrap {sub : Qry} {ns : List Qry} {dd : IndexedDoc} :
    qryMatches
        (.boolean ((Occur.must, sub) :: ns.map fun e => (Occur.mustNot, e)))
        dd = true ↔
      qryMatches sub dd = true ∧ ∀ n ∈ ns, qryMatches n dd = false := by
  rw [qryMatches_boolean, mustsOf_cons_must, mustsOf_map_mustNot,
    mustNotsOf_cons_must, mustNotsOf_map_mustNot]
  simp

theorem decompose_complete_aux : ∀ (n : Nat) (q : Qry), sizeOf q ≤ n →
    ∀ dd : IndexedDoc, qryMatches q dd = true →
      ∃ s ∈ decompose q, qryMatches s dd = true := by
  intro n
  induction n with
  | zero =>
      intro q hq
      exfalso
      cases q <;> simp_arith at hq
  | succ n ih =>
      intro q hq dd h
      cases q with
      | term t => exact ⟨.term t, by simp [decompose], h⟩
      | termSet ts => exact ⟨.termSet ts, by simp [decompose], h⟩
      | all => exact ⟨.all, by simp [decompose], h⟩
      | boost q' f =>
          have hq' : sizeOf q' ≤ n := by
            have : sizeOf (Qry.boost q' f) = 1 + sizeOf q' + sizeOf f := rfl
            omega
          have h' : qryMatches q' dd = true := by
            rw [show qryMatches (.boost q' f) dd = qryMatches q' dd from by
              rw [qryMatches]] at h
            exact h
          obtain ⟨s, hs, hm⟩ := ih q' hq' dd h'
          by_cases hf : f = 1
          · refine ⟨s, ?_, hm⟩
            rw [show decompose (.boost q' f) = decompose q' from by
              simp [decompose, hf]]
            exact hs
          · refine ⟨.boost s f, ?_, ?_⟩
            · rw [show decompose (.boost q' f) =
                  (decompose q').map (fun u => .boost u f) from by
                simp [decompose, hf]]
              exact List.mem_map.2 ⟨s, hs, rfl⟩
            · rw [show qryMatches (.boost s f) dd = qryMatches s dd from by
                rw [qryMatches]]
              exact hm
      | disjunctionMax qs =>
          rw [show qryMatches (.disjunctionMax qs) dd = anyMatches qs dd
            from by rw [qryMatches]] at h
          obtain ⟨q', hq', h'⟩ := anyMatches_iff.1 h
          have hsz : sizeOf q' ≤ n := by
            have h1 := List.sizeOf_lt_of_mem hq'
            have h2 : sizeOf (Qry.disjunctionMax qs) = 1 + sizeOf qs := by
              simp
            omega
          obtain ⟨s, hs, hm⟩ := ih q' hsz dd h'
          refine ⟨s, ?_, hm⟩
          rw [show decompose (.disjunctionMax qs) = decomposeList qs from by
            simp [decompose]]
          exact mem_decomposeList hq' hs
      | boolean clauses =>
          obtain ⟨hM, hN, hOr⟩ := qryMatches_boolean.1 h
          have hszc : sizeOf clauses ≤ n := by
            have : sizeOf (Qry.boolean clauses) = 1 + sizeOf clauses := by simp
            omega
          rw [decompose_boolean_eq]
          simp only [decomposeBoolean]
          by_cases hC : 1 < (mustsOf clauses).length ∨
              ((mustsOf clauses).length = 1 ∧
                ¬(shouldOutputs clauses).isEmpty = true)
          · rw [if_pos hC]
            exact ⟨.boolean clauses, by simp, h⟩
          · rw [if_neg hC]
            -- find a matching sub-query in the unwrapped scope output
            have hfind : ∃ s₀ ∈ shouldOutputs clauses ++
                (if (mustsOf clauses).length = 1 then mustOutputs clauses
                  else []),
                qryMatches s₀ dd = true := by
              rcases hmusts : mustsOf clauses with _ | ⟨m, rest⟩
              · have hne : ∃ q' ∈ shouldsOf clauses, qryMatches q' dd = true := by
                  rcases hOr with hbad | hgood
                  · exact absurd hmusts hbad
                  · exact hgood
                obtain ⟨q', hq', h'⟩ := hne
                have hsz : sizeOf q' ≤ n :=
                  le_trans (le_of_lt (sizeOf_snd_lt_of_mem (mem_shouldsOf hq')))
                    hszc
                obtain ⟨s₀, hs₀, hm₀⟩ := ih q' hsz dd h'
                exact ⟨s₀, List.mem_append.2 (Or.inl (mem_shouldOutputs hq' hs₀)),
                  hm₀⟩
              · rcases rest with _ | ⟨m2, rest2⟩
                · have hmatch_m : qryMatches m dd = true :=
                    hM m (by rw [hmusts]; exact List.mem_cons_self _ _)
                  have hsz : sizeOf m ≤ n := by
                    have hmem : (Occur.must, m) ∈ clauses :=
                      mem_mustsOf (by rw [hmusts]; exact List.mem_cons_self _ _)
                    exact le_trans (le_of_lt (sizeOf_snd_lt_of_mem hmem)) hszc
                  obtain ⟨s₀, hs₀, hm₀⟩ := ih m hsz dd hmatch_m
                  refine ⟨s₀, List.mem_append.2 (Or.inr ?_), hm₀⟩
                  have hlen : ([m] : List Qry).length = 1 := by simp
                  rw [if_pos hlen, mustOutputs_single hmusts]
                  exact hs₀
                · exfalso
                  apply hC
                  left
                  rw [hmusts]
                  simp
            obtain ⟨s₀, hs₀, hm₀⟩ := hfind
            by_cases hmn : (mustNotsOf clauses).isEmpty
            · rw [if_pos hmn]
              exact ⟨s₀, hs₀, hm₀⟩
            · rw [if_neg hmn]
              refine ⟨.boolean ((Occur.must, s₀) ::
                  (mustNotsOf clauses).map fun e => (Occur.mustNot, e)),
                List.mem_map.2 ⟨s₀, hs₀, rfl⟩, ?_⟩
              exact qryMatches_wrap.2 ⟨hm₀, fun nq hnq => hN nq hnq⟩

/-- Decomposition never loses matchability: every query matching a document
has some decomposed sub-query matching it. -/
theorem decompose_complete (q : Qry) (dd : IndexedDoc)
    (h : qryMatches q dd = true) :
    ∃ s ∈ decompose q, qryMatches s dd = true :=
  decompose_complete_aux (sizeOf q) q (le_refl _) dd h

/-! ## Term-selection soundness -/

theorem mustAsts_eq (clauses : List (Occur × Qry)) :
    mustAsts clauses = (mustsOf clauses).map toAst := by
  induction clauses with
  | nil => simp [mustAsts, mustsOf]
  | cons c rest ih =>
      obtain ⟨o, q⟩ := c
      cases o with
      | must =>
          rw [show mustAsts ((Occur.must, q) :: rest) = toAst q :: mustAsts rest
            from by simp [mustAsts]]
          rw [mustsOf_cons_must, List.map_cons, ih]
      | should =>
          rw [show mustAsts ((Occur.should, q) :: rest) = mustAsts rest
            from by simp [mustAsts]]
          rw [mustsOf_cons_should, ih]
      | mustNot =>
          rw [show mustAsts ((Occur.mustNot, q) :: rest) = mustAsts rest
            from by simp [mustAsts]]
          rw [mustsOf_cons_mustNot, ih]

theorem shouldAsts_eq (clauses : List (Occur × Qry)) :
    shouldAsts clauses = (shouldsOf clauses).map toAst := by
  induction clauses with
  | nil => simp [shouldAsts, shouldsOf]
  | cons c rest ih =>
      obtain ⟨o, q⟩ := c
      cases o with
      | should =>
          rw [show shouldAsts ((Occur.should, q) :: rest) =
              toAst q :: shouldAsts rest from by simp [shouldAsts]]
          rw [shouldsOf_cons_should, List.map_cons, ih]
      | must =>
          rw [show shouldAsts ((Occur.must, q) :: rest) = shouldAsts rest
            from by simp [shouldAsts]]
          rw [shouldsOf_cons_must, ih]
      | mustNot =>
          rw [show shouldAsts ((Occur.mustNot, q) :: rest) = shouldAsts rest
            from by simp [shouldAsts]]
          rw [shouldsOf_cons_mustNot, ih]

theorem toAstList_eq (qs : List Qry) : toAstList qs = qs.map toAst := by
  induction qs with
  | nil => simp [toAstList]
  | cons q rest ih =>
      rw [show toAstList (q :: rest) = toAst q :: toAstList rest from by
        rw [toAstList]]
      rw [List.map_cons, ih]

theorem selScored_eq (f : QTree → ℚ) (a : Nat) (trees : List QTree) :
    selScored f a trees = trees.map fun t => (f t, selectTerms f a t) := by
  induction trees with
  | nil => rw [selScored]; rfl
  | cons t ts ih =>
      rw [show selScored f a (t :: ts) =
        (f t, selectTerms f a t) :: selScored f a ts from by rw [selScored]]
      rw [List.map_cons, ih]

theorem foldl_pick_map (f : QTree → ℚ) (a : Nat) (ts : List QTree) :
    ∀ t : QTree,
    (ts.map fun u => (f u, selectTerms f a u)).foldl
        (fun best x => if best.1 < x.1 then x else best)
        (f t, selectTerms f a t) =
      (f (ts.foldl (fun best x => if f best < f x then x else best) t),
        selectTerms f a
          (ts.foldl (fun best x => if f best < f x then x else best) t)) := by
  induction ts with
  | nil => intro t; rfl
  | cons x xs ih =>
      intro t
      rw [List.map_cons, List.foldl_cons, List.foldl_cons]
      have hcomm : ((if (f t, selectTerms f a t).1 < (f x, selectTerms f a x).1
          then (f x, selectTerms f a x) else (f t, selectTerms f a t)) :
            ℚ × List Tm) =
          (f (if f t < f x then x else t),
            selectTerms f a (if f t < f x then x else t)) := by
        by_cases hc : f t < f x
        · rw [if_pos hc, if_pos hc]
        · rw [if_neg hc, if_neg hc]
      rw [hcomm, ih]

theorem selectTerms_conjunction {f : QTree → ℚ} {a : Nat}
    {trees : List QTree} {t : QTree} (hp : pickMax f trees = some t) :
    selectTerms f a (.conjunction trees) = selectTerms f a t := by
  cases trees with
  | nil => cases hp
  | cons hd tl =>
      rw [show pickMax f (hd :: tl) =
        some (tl.foldl (fun best x => if f best < f x then x else best) hd)
        from by rw [pickMax]] at hp
      have ht : tl.foldl (fun best x => if f best < f x then x else best) hd
          = t := by
        injection hp
      rw [show selectTerms f a (.conjunction (hd :: tl)) =
        (pickMaxPair (selScored f a (hd :: tl))).getD [] from by
        rw [selectTerms]]
      rw [selScored_eq, List.map_cons]
      rw [show pickMaxPair ((f hd, selectTerms f a hd) ::
          tl.map fun u => (f u, selectTerms f a u)) =
        some ((tl.map fun u => (f u, selectTerms f a u)).foldl
          (fun best x => if best.1 < x.1 then x else best)
          (f hd, selectTerms f a hd)).2 from by rw [pickMaxPair]]
      rw [foldl_pick_map, ht]
      rfl

theorem selectTerms_disjunction {f : QTree → ℚ} {a : Nat}
    {trees : List QTree} :
    selectTerms f a (.disjunction trees) = selectTermsList f a trees := by
  rw [selectTerms]

theorem mem_selectTermsList {f : QTree → ℚ} {a : Nat} {tm : Tm} {t : QTree}
    {trees : List QTree} (ht : t ∈ trees)
    (htm : tm ∈ selectTerms f a t) : tm ∈ selectTermsList f a trees := by
  induction trees with
  | nil => cases ht
  | cons t' rest ih =>
      rw [show selectTermsList f a (t' :: rest) =
          selectTerms f a t' ++ selectTermsList f a rest from by
        rw [selectTermsList]]
      rw [List.mem_append]
      rcases List.mem_cons.1 ht with rfl | ht
      · exact Or.inl htm
      · exact Or.inr (ih ht)

theorem selectTermsList_map_term {f : QTree → ℚ} {a : Nat} (ts : List Tm) :
    selectTermsList f a (ts.map QTree.term) = ts := by
  induction ts with
  | nil => simp [selectTermsList]
  | cons t rest ih =>
      rw [List.map_cons,
        show selectTermsList f a (QTree.term t :: rest.map QTree.term) =
          selectTerms f a (QTree.term t) ++
            selectTermsList f a (rest.map QTree.term) from by
          rw [selectTermsList]]
      rw [show selectTerms f a (QTree.term t) = [t] from by rw [selectTerms],
        ih, List.singleton_append]

theorem pickMax_isSome {f : QTree → ℚ} {trees : List QTree}
    (h : trees ≠ []) : ∃ t, pickMax f trees = some t := by
  cases trees with
  | nil => exact absurd rfl h
  | cons t ts => exact ⟨_, rfl⟩

theorem select_sound_aux : ∀ (n : Nat) (q : Qry), sizeOf q ≤ n →
    ∀ (f : QTree → ℚ) (anyterm : Nat) (dd : IndexedDoc),
      qryMatches q dd = true →
      ∃ tm ∈ selectTerms f anyterm (toAst q),
        tm = ⟨anyterm, .boolV true⟩ ∨ tm.value ∈ dd tm.field := by
  intro n
  induction n with
  | zero =>
      intro q hq
      exfalso
      cases q <;> simp_arith at hq
  | succ n ih =>
      intro q hq f anyterm dd h
      cases q with
      | term t =>
          refine ⟨t, ?_, Or.inr ?_⟩
          · rw [show toAst (.term t) = QTree.term t from by rw [toAst],
              show selectTerms f anyterm (QTree.term t) = [t] from by
                rw [selectTerms]]
            exact List.mem_singleton.2 rfl
          · rw [show qryMatches (.term t) dd =
                decide (t.value ∈ dd t.field) from by rw [qryMatches]] at h
            exact of_decide_eq_true h
      | termSet ts =>
          rw [show qryMatches (.termSet ts) dd =
              (ts.any fun t => decide (t.value ∈ dd t.field)) from by
            rw [qryMatches]] at h
          obtain ⟨t, ht, hv⟩ := List.any_eq_true.1 h
          refine ⟨t, ?_, Or.inr (of_decide_eq_true hv)⟩
          rw [show toAst (.termSet ts) = .disjunction (ts.map QTree.term)
            from by rw [toAst]]
          rw [selectTerms_disjunction, selectTermsList_map_term]
          exact ht
      | all =>
          refine ⟨⟨anyterm, .boolV true⟩, ?_, Or.inl rfl⟩
          rw [show toAst .all = QTree.anyTerm from by rw [toAst],
            show selectTerms f anyterm QTree.anyTerm =
              [⟨anyterm, .boolV true⟩] from by rw [selectTerms]]
          exact List.mem_singleton.2 rfl
      | boost q' fac =>
          have hq' : sizeOf q' ≤ n := by
            have : sizeOf (Qry.boost q' fac) = 1 + sizeOf q' + sizeOf fac := rfl
            omega
          rw [show qryMatches (.boost q' fac) dd = qryMatches q' dd from by
            rw [qryMatches]] at h
          rw [show toAst (.boost q' fac) = toAst q' from by rw [toAst]]
          exact ih q' hq' f anyterm dd h
      | disjunctionMax qs =>
          rw [show qryMatches (.disjunctionMax qs) dd = anyMatches qs dd
            from by rw [qryMatches]] at h
          obtain ⟨q', hq', h'⟩ := anyMatches_iff.1 h
          have hsz : sizeOf q' ≤ n := by
            have h1 := List.sizeOf_lt_of_mem hq'
            have h2 : sizeOf (Qry.disjunctionMax qs) = 1 + sizeOf qs := by simp
            omega
          obtain ⟨tm, htm, hres⟩ := ih q' hsz f anyterm dd h'
          refine ⟨tm, ?_, hres⟩
          rw [show toAst (.disjunctionMax qs) = .disjunction (toAstList qs)
            from by rw [toAst]]
          rw [selectTerms_disjunction]
          exact mem_selectTermsList
            (toAstList_eq qs ▸ List.mem_map.2 ⟨q', hq', rfl⟩) htm
      | boolean clauses =>
          obtain ⟨hM, hN, hOr⟩ := qryMatches_boolean.1 h
          have hszc : sizeOf clauses ≤ n := by
            have : sizeOf (Qry.boolean clauses) = 1 + sizeOf clauses := by simp
            omega
          by_cases hme : (mustsOf clauses).isEmpty
          · have hmnil : mustsOf clauses = [] := by
              simpa [List.isEmpty_iff] using hme
            have hsome : ∃ q' ∈ shouldsOf clauses, qryMatches q' dd = true := by
              rcases hOr with hbad | hgood
              · exact absurd hmnil hbad
              · exact hgood
            obtain ⟨q', hq', h'⟩ := hsome
            have hsz : sizeOf q' ≤ n :=
              le_trans (le_of_lt (sizeOf_snd_lt_of_mem (mem_shouldsOf hq')))
                hszc
            obtain ⟨tm, htm, hres⟩ := ih q' hsz f anyterm dd h'
            refine ⟨tm, ?_, hres⟩
            rw [show toAst (.boolean clauses) =
                (if (mustsOf clauses).isEmpty then
                  QTree.disjunction (shouldAsts clauses)
                else QTree.conjunction (mustAsts clauses)) from by rw [toAst]]
            rw [if_pos hme, selectTerms_disjunction]
            exact mem_selectTermsList
              (shouldAsts_eq clauses ▸ List.mem_map.2 ⟨q', hq', rfl⟩) htm
          · have htrees : mustAsts clauses ≠ [] := by
              rw [mustAsts_eq]
              intro hcon
              rw [List.map_eq_nil] at hcon
              rw [hcon] at hme
              simp at hme
            obtain ⟨t₀, hp⟩ := pickMax_isSome (f := f) htrees
            have ht₀ := pickMax_mem hp
            rw [mustAsts_eq] at ht₀
            obtain ⟨m₀, hm₀, hast⟩ := List.mem_map.1 ht₀
            have h' : qryMatches m₀ dd = true := hM m₀ hm₀
            have hsz : sizeOf m₀ ≤ n :=
              le_trans (le_of_lt (sizeOf_snd_lt_of_mem (mem_mustsOf hm₀))) hszc
            obtain ⟨tm, htm, hres⟩ := ih m₀ hsz f anyterm dd h'
            refine ⟨tm, ?_, hres⟩
            rw [show toAst (.boolean clauses) =
                (if (mustsOf clauses).isEmpty then
                  QTree.disjunction (shouldAsts clauses)
                else QTree.conjunction (mustAsts clauses)) from by rw [toAst]]
            rw [if_neg hme, selectTerms_conjunction hp, ← hast]
            exact htm

/-- Selection soundness: when a query matches a document, some selected
term of its AST is witnessed by the document (or is the anyterm marker). -/
theorem select_sound (q : Qry) (f : QTree → ℚ) (anyterm : Nat)
    (dd : IndexedDoc) (h : qryMatches q dd = true) :
    ∃ tm ∈ selectTerms f anyterm (toAst q),
      tm = ⟨anyterm, .boolV true⟩ ∨ tm.value ∈ dd tm.field :=
  select_sound_aux (sizeOf q) q (le_refl _) f anyterm dd h

/-! ## C4 — the synthetic-document invariant -/

theorem anyterm_flag_mem {f : QTree → ℚ} {schema : Schema} {q : Qry}
    (hany : schema.ftype schema.anyterm = .boolT)
    (hsel : (⟨schema.anyterm, .boolV true⟩ : Tm) ∈
      selectTerms f schema.anyterm (toAst q)) :
    (schema.anyterm, IVal.boolI true) ∈ convertQueryToDocument f schema q := by
  simp only [convertQueryToDocument]
  apply List.mem_filterMap.2
  refine ⟨schema.anyterm, ?_, ?_⟩
  · rw [List.mem_dedup]
    exact List.mem_map.2 ⟨_, hsel, rfl⟩
  · rw [hany]
    simp

theorem text_entry_mem {f : QTree → ℚ} {schema : Schema} {q : Qry} {tm : Tm}
    {nm : Option String} {x : String}
    (hft : schema.ftype tm.field = .strT nm)
    (hsel : tm ∈ selectTerms f schema.anyterm (toAst q))
    (hval : tm.value = .str x) :
    ∃ ts, (tm.field, IVal.text ts) ∈ convertQueryToDocument f schema q ∧
      x ∈ ts := by
  simp only [convertQueryToDocument]
  refine ⟨strValues (((selectTerms f schema.anyterm (toAst q)).filter
      fun t => t.field = tm.field).dedup), ?_, ?_⟩
  · apply List.mem_filterMap.2
    refine ⟨tm.field, ?_, ?_⟩
    · rw [List.mem_dedup]
      exact List.mem_map.2 ⟨tm, hsel, rfl⟩
    · rw [hft]
  · rw [strValues]
    apply List.mem_filterMap.2
    refine ⟨tm, ?_, ?_⟩
    · rw [List.mem_dedup]
      exact List.mem_filter.2 ⟨hsel, by simp⟩
    · rw [hval]

/-- C4 (amended): a sub-query's synthetic document populates the
`__anytermfield__` flag or holds at least one indexed term in a user field,
*provided* the sub-query's AST selects at least one term that is either the
anyterm marker or lives on a text field — terms on other field types are
silently dropped by the converter and cannot sustain the invariant. -/
theorem convert_query_invariant (f : QTree → ℚ) (schema : Schema)
    (q s : Qry) (hany : schema.ftype schema.anyterm = .boolT)
    (hsub : s ∈ decompose q)
    (hsel : ∃ tm ∈ selectTerms f schema.anyterm (toAst s),
        tm = ⟨schema.anyterm, .boolV true⟩ ∨
          ∃ nm x, schema.ftype tm.field = .strT nm ∧ tm.value = .str x) :
    hasAnytermFlag schema (convertQueryToDocument f schema s) = true ∨
      hasUserTerm schema (convertQueryToDocument f schema s) = true := by
  obtain ⟨tm, hm, hcase⟩ := hsel
  rcases hcase with rfl | ⟨nm, x, hft, hval⟩
  · left
    rw [hasAnytermFlag]
    apply List.any_eq_true.2
    exact ⟨(schema.anyterm, .boolI true), anyterm_flag_mem hany hm, by simp⟩
  · right
    obtain ⟨ts, hmem, hx⟩ := text_entry_mem hft hm hval
    rw [hasUserTerm]
    apply List.any_eq_true.2
    refine ⟨(tm.field, .text ts), hmem, ?_⟩
    have hne : ¬tm.field = schema.anyterm := by
      intro hcon
      rw [hcon, hany] at hft
      cases hft
    have hts : ¬ts.isEmpty = true := by
      intro hcon
      rw [List.isEmpty_iff] at hcon
      rw [hcon] at hx
      cases hx
    simp [hne, hts]

/-- Counterexample to C4 as stated: the parenthetical case fails — a
sub-query whose only term lives on a `u64` field (skipped by the converter)
yields a synthetic document that neither carries the `__anytermfield__`
flag nor holds any indexed term; the schema maps field 0 to `u64` and
field 1 to the reserved bool anyterm field. -/
theorem convert_query_counterexample :
    decompose (.term ⟨0, .u64 5⟩) = [.term ⟨0, .u64 5⟩] ∧
      hasAnytermFlag ⟨fun n => if n = 1 then .boolT else .u64T, 1⟩
        (convertQueryToDocument (fun _ => 0)
          ⟨fun n => if n = 1 then .boolT else .u64T, 1⟩
          (.term ⟨0, .u64 5⟩)) = false ∧
      hasUserTerm ⟨fun n => if n = 1 then .boolT else .u64T, 1⟩
        (convertQueryToDocument (fun _ => 0)
          ⟨fun n => if n = 1 then .boolT else .u64T, 1⟩
          (.term ⟨0, .u64 5⟩)) = false := by
  refine ⟨by simp [decompose], ?_, ?_⟩ <;>
    simp [convertQueryToDocument, toAst, selectTerms, hasAnytermFlag,
      hasUserTerm, strValues]

/-- Witness for C4 (amended) at a term sub-query on a text field. -/
theorem convert_query_invariant_witness :
    hasAnytermFlag ⟨fun n => if n = 1 then .boolT else .strT (some "default"), 1⟩
        (convertQueryToDocument (fun _ => 0)
          ⟨fun n => if n = 1 then .boolT else .strT (some "default"), 1⟩
          (.term ⟨0, .str "x"⟩)) = true ∨
      hasUserTerm ⟨fun n => if n = 1 then .boolT else .strT (some "default"), 1⟩
        (convertQueryToDocument (fun _ => 0)
          ⟨fun n => if n = 1 then .boolT else .strT (some "default"), 1⟩
          (.term ⟨0, .str "x"⟩)) = true := by
  apply convert_query_invariant (fun _ => 0) _ (.term ⟨0, .str "x"⟩)
    (.term ⟨0, .str "x"⟩) rfl
  · simp [decompose]
  · refine ⟨⟨0, .str "x"⟩, ?_, Or.inr ⟨some "default", "x", rfl, rfl⟩⟩
    rw [show toAst (.term ⟨0, .str "x"⟩) = QTree.term ⟨0, .str "x"⟩ from by
      rw [toAst]]
    rw [show selectTerms (fun _ => 0) 1 (QTree.term ⟨0, .str "x"⟩) =
      [⟨0, .str "x"⟩] from by rw [selectTerms]]
    exact List.mem_singleton.2 rfl

/-! ## Document-conversion and indexing lemmas -/

theorem collectDocTerms_ok_acc {schema : Schema} {tokm : TokMgr} :
    ∀ (d : Doc) (st : TfIdfState) (acc : List Tm) {st' : TfIdfState}
      {ts : List Tm},
    collectDocTerms schema tokm d st acc = (st', .ok ts) →
      ∀ tm ∈ acc, tm ∈ ts := by
  intro d
  induction d with
  | nil =>
      intro st acc st' ts heq tm htm
      rw [collectDocTerms] at heq
      simp only [Prod.mk.injEq, Except.ok.injEq] at heq
      exact heq.2 ▸ htm
  | cons e rest ih =>
      intro st acc st' ts heq tm htm
      obtain ⟨fl, v⟩ := e
      rw [collectDocTerms] at heq
      rcases hft : schema.ftype fl with ind | _ | _
      · rcases ind with _ | tname
        · rw [hft] at heq
          simp at heq
        · rw [hft] at heq
          rcases htk : tokm tname with _ | tk
          · simp [htk] at heq
          · rcases v with s | b | u
            · simp only [htk] at heq
              exact ih _ _ heq tm (List.mem_append.2 (Or.inl htm))
            · simp [htk] at heq
            · simp [htk] at heq
      · rw [hft] at heq
        exact ih _ _ heq tm htm
      · rw [hft] at heq
        exact ih _ _ heq tm htm

theorem collectDocTerms_ok_mem {schema : Schema} {tokm : TokMgr} :
    ∀ (d : Doc) (st : TfIdfState) (acc : List Tm) {st' : TfIdfState}
      {ts : List Tm},
    collectDocTerms schema tokm d st acc = (st', .ok ts) →
      ∀ (fl : Nat) (s : String) (nm : String) (tk : String → List String)
        (x : String),
        (fl, TValue.str s) ∈ d → schema.ftype fl = .strT (some nm) →
        tokm nm = some tk → x ∈ tk s → (⟨fl, .str x⟩ : Tm) ∈ ts := by
  intro d
  induction d with
  | nil =>
      intro st acc st' ts heq fl s nm tk x hmem
      cases hmem
  | cons e rest ih =>
      intro st acc st' ts heq fl s nm tk x hmem hft htk hx
      obtain ⟨fl', v'⟩ := e
      rw [collectDocTerms] at heq
      rcases List.mem_cons.1 hmem with heqhead | hmem'
      · injection heqhead with h1 h2
        subst h1
        subst h2
        rw [hft] at heq
        simp only [htk] at heq
        exact collectDocTerms_ok_acc rest _ _ heq _
          (List.mem_append.2 (Or.inr (List.mem_map.2 ⟨x, hx, rfl⟩)))
      · rcases hft' : schema.ftype fl' with ind | _ | _
        · rcases ind with _ | tname
          · rw [hft'] at heq
            simp at heq
          · rw [hft'] at heq
            rcases htk' : tokm tname with _ | tk'
            · simp [htk'] at heq
            · rcases v' with s' | b' | u'
              · simp only [htk'] at heq
                exact ih _ _ heq fl s nm tk x hmem' hft htk hx
              · simp [htk'] at heq
              · simp [htk'] at heq
        · rw [hft'] at heq
          exact ih _ _ heq fl s nm tk x hmem' hft htk hx
        · rw [hft'] at heq
          exact ih _ _ heq fl s nm tk x hmem' hft htk hx

theorem convertDocumentToQuery_ok_shape {st : TfIdfState} {schema : Schema}
    {tokm : TokMgr} {d : Doc} {sc : TfIdfState} {dq : Qry}
    (h : convertDocumentToQuery st schema tokm d = (sc, .ok dq)) :
    ∃ ts, collectDocTerms schema tokm d (addDocumentCount st) [] =
        (sc, .ok ts) ∧
      dq = .boolean [(Occur.should, .termSet ts),
        (Occur.should, .term ⟨schema.anyterm, .boolV true⟩)] := by
  rw [convertDocumentToQuery] at h
  rcases hc : collectDocTerms schema tokm d (addDocumentCount st) [] with ⟨st2, r⟩
  rw [hc] at h
  rcases r with e | ts
  · exact absurd (congrArg (fun p => p.2) h) (by simp)
  · simp only [Prod.mk.injEq, Except.ok.injEq] at h
    obtain ⟨rfl, rfl⟩ := h
    exact ⟨ts, rfl, rfl⟩

theorem indexUserDoc_str_elim {schema : Schema} {tokm : TokMgr} {d : Doc}
    {fl : Nat} {v : TValue} {nm : Option String}
    (hft : schema.ftype fl = .strT nm)
    (hv : v ∈ indexUserDoc schema tokm d fl) :
    ∃ tname tk s x, nm = some tname ∧ tokm tname = some tk ∧
      (fl, TValue.str s) ∈ d ∧ x ∈ tk s ∧ v = TValue.str x := by
  simp only [indexUserDoc] at hv
  obtain ⟨e, he, hv'⟩ := List.mem_flatMap.1 hv
  obtain ⟨hed, hefl⟩ := List.mem_filter.1 he
  obtain ⟨fl', v'⟩ := e
  have hfl' : fl' = fl := by simpa using hefl
  subst hfl'
  rw [hft] at hv'
  rcases nm with _ | tname
  · rcases v' with s | b | u <;> simp at hv'
  · rcases v' with s | b | u
    · have hv2 : v ∈ (match tokm tname with
          | some tk => List.map TValue.str (tk s)
          | none => ([] : List TValue)) := hv'
      rcases htk : tokm tname with _ | tk
      · rw [htk] at hv2
        simp at hv2
      · rw [htk] at hv2
        obtain ⟨x, hx, rfl⟩ := List.mem_map.1 hv2
        exact ⟨tname, tk, s, x, rfl, htk, hed, hx, rfl⟩
    · simp at hv'
    · simp at hv'

theorem indexSynth_text {sd : SynthDoc} {fl : Nat} {ts : List String}
    {x : String} (h : (fl, IVal.text ts) ∈ sd) (hx : x ∈ ts) :
    TValue.str x ∈ indexSynth sd fl := by
  simp only [indexSynth]
  exact List.mem_flatMap.2 ⟨(fl, .text ts), List.mem_filter.2 ⟨h, by simp⟩,
    List.mem_map.2 ⟨x, hx, rfl⟩⟩

theorem indexSynth_bool {sd : SynthDoc} {fl : Nat} {b : Bool}
    (h : (fl, IVal.boolI b) ∈ sd) : TValue.boolV b ∈ indexSynth sd fl := by
  simp only [indexSynth]
  exact List.mem_flatMap.2 ⟨(fl, .boolI b), List.mem_filter.2 ⟨h, by simp⟩,
    by simp⟩

/-- The candidate-selection query built by `convert_document_to_query`
matches any indexed document that carries one of its terms or the anyterm
marker. -/
theorem documentQuery_matches {ts : List Tm} {anyterm : Nat}
    {X : IndexedDoc}
    (h : (∃ t ∈ ts, t.value ∈ X t.field) ∨ TValue.boolV true ∈ X anyterm) :
    qryMatches (.boolean [(Occur.should, .termSet ts),
      (Occur.should, .term ⟨anyterm, .boolV true⟩)]) X = true := by
  rw [qryMatches_boolean]
  refine ⟨?_, ?_, Or.inr ?_⟩
  · intro q hq
    rw [show mustsOf [(Occur.should, Qry.termSet ts),
        (Occur.should, Qry.term ⟨anyterm, .boolV true⟩)] = [] from by
      rw [mustsOf_cons_should, mustsOf_cons_should]; rfl] at hq
    cases hq
  · intro q hq
    rw [show mustNotsOf [(Occur.should, Qry.termSet ts),
        (Occur.should, Qry.term ⟨anyterm, .boolV true⟩)] = [] from by
      rw [mustNotsOf_cons_should, mustNotsOf_cons_should]; rfl] at hq
    cases hq
  · rw [show shouldsOf [(Occur.should, Qry.termSet ts),
        (Occur.should, Qry.term ⟨anyterm, .boolV true⟩)] =
      [Qry.termSet ts, Qry.term ⟨anyterm, .boolV true⟩] from by
      rw [shouldsOf_cons_should, shouldsOf_cons_should]; rfl]
    rcases h with ⟨t, ht, hv⟩ | hany
    · refine ⟨.termSet ts, by simp, ?_⟩
      rw [show qryMatches (.termSet ts) X =
          (ts.any fun t => decide (t.value ∈ X t.field)) from by
        rw [qryMatches]]
      exact List.any_eq_true.2 ⟨t, ht, decide_eq_true hv⟩
    · refine ⟨.term ⟨anyterm, .boolV true⟩, by simp, ?_⟩
      rw [show qryMatches (.term ⟨anyterm, .boolV true⟩) X =
          decide (TValue.boolV true ∈ X anyterm) from by rw [qryMatches]]
      exact decide_eq_true hany

/-! ## C2 — completeness of the two-phase match -/

/-- Counterexample to C2 as stated: register the query `Term(field0, 5)` on
a `u64` field (id 0) — its synthetic document is empty, so Phase 1 can
never select it.  The document `{field0: 5}` matches the registered query
(the Phase-2 single-document index indexes the u64 value), yet
`match_document` returns the empty id set: a false negative. -/
theorem match_document_complete_counterexample :
    qryMatches (.term ⟨0, .u64 5⟩)
        (indexUserDoc ⟨fun n => if n = 1 then .boolT else .u64T, 1⟩
          (fun _ => some fun s => [s]) [(0, .u64 5)]) = true ∧
      (matchDocument ⟨fun n => if n = 1 then .boolT else .u64T, 1⟩
          (fun _ => some fun s => [s])
          (registerQuery (fun _ => 0)
            ⟨fun n => if n = 1 then .boolT else .u64T, 1⟩
            ⟨[], [], ⟨0, 0, []⟩⟩ 0 (.term ⟨0, .u64 5⟩))
          [(0, .u64 5)]).2 =
        .ok (∅, ⟨1, 0, 0⟩) := by
  constructor
  · decide
  · rfl

/-- C2 (amended): completeness holds for registered queries whose
sub-queries select only anyterm markers or terms on text fields.  If
`(id, q)` is registered (store entry and synthetic documents present), the
document converts successfully, and `q` matches the Phase-2
single-document index built from `d`, then `id` is in the result set.  As
stated the claim is false: terms on non-text fields are silently dropped
from the synthetic documents (`convert_query_to_document` skips such
fields), which loses the Phase-1 candidate. -/
theorem match_document_complete (schema : Schema) (tokm : TokMgr)
    (st : MonState) (d : Doc) (id : Nat) (q : Qry) (f : QTree → ℚ)
    (sc : TfIdfState) (res : Finset Nat) (m : Metrics)
    (hany : schema.ftype schema.anyterm = .boolT)
    (hreg : storeLookup st.queryStore id = some q)
    (hidx : ∀ s ∈ decompose q,
      (convertQueryToDocument f schema s, id) ∈ st.queryIndex)
    (hterms : ∀ s ∈ decompose q,
      ∀ tm ∈ selectTerms f schema.anyterm (toAst s),
        tm = ⟨schema.anyterm, .boolV true⟩ ∨
          ∃ nm, schema.ftype tm.field = .strT nm)
    (hok : matchDocument schema tokm st d = (sc, .ok (res, m)))
    (hmatch : qryMatches q (indexUserDoc schema tokm d) = true) :
    id ∈ res := by
  -- unfold the match pipeline
  rw [matchDocument] at hok
  rcases hcv : convertDocumentToQuery st.scorer schema tokm d with ⟨sc', r⟩
  rw [hcv] at hok
  rcases r with e | dq
  · exact absurd (congrArg (fun p => p.2) hok) (by simp)
  obtain ⟨ts, hcol, rfl⟩ := convertDocumentToQuery_ok_shape hcv
  simp only [Prod.mk.injEq, Except.ok.injEq] at hok
  obtain ⟨-, hres, -⟩ := hok
  -- a matching sub-query and its selected witness term
  obtain ⟨s, hs, hsm⟩ := decompose_complete q _ hmatch
  obtain ⟨tm, htm, hcase⟩ := select_sound s f schema.anyterm _ hsm
  -- the synthetic document of the sub-query matches the candidate query
  have hsd : qryMatches
      (.boolean [(Occur.should, .termSet ts),
        (Occur.should, .term ⟨schema.anyterm, .boolV true⟩)])
      (indexSynth (convertQueryToDocument f schema s)) = true := by
    rcases hterms s hs tm htm with rfl | ⟨nm, hft⟩
    · exact documentQuery_matches
        (Or.inr (indexSynth_bool (anyterm_flag_mem hany htm)))
    · have hvD : tm.value ∈ indexUserDoc schema tokm d tm.field := by
        rcases hcase with rfl | hvD
        · exfalso
          rw [show (⟨schema.anyterm, TValue.boolV true⟩ : Tm).field =
              schema.anyterm from rfl, hany] at hft
          cases hft
        · exact hvD
      obtain ⟨tname, tk, sv, x, rfl, htk, hed, hx, hvx⟩ :=
        indexUserDoc_str_elim hft hvD
      have hts : (⟨tm.field, .str x⟩ : Tm) ∈ ts :=
        collectDocTerms_ok_mem d _ _ hcol tm.field sv tname tk x hed hft htk hx
      obtain ⟨tl, hmem_sd, hxl⟩ := text_entry_mem hft htm hvx
      exact documentQuery_matches
        (Or.inl ⟨⟨tm.field, .str x⟩, hts, indexSynth_text hmem_sd hxl⟩)
  -- id therefore survives Phase 1 and Phase 2
  rw [← hres]
  apply Finset.mem_filter.2
  constructor
  · rw [List.mem_toFinset]
    apply List.mem_filter.2
    refine ⟨?_, by rw [hreg]; rfl⟩
    exact List.mem_map.2 ⟨(convertQueryToDocument f schema s, id),
      List.mem_filter.2 ⟨hidx s hs, by simpa using hsd⟩, rfl⟩
  · show phase2Hit st.queryStore schema tokm d id = true
    rw [phase2Hit, hreg]
    exact hmatch

/-- Witness for C2 (amended): the one-query monitor of the C1 witness
(`body:bloomberg`, id 0) against the document `body:"bloomberg"`; the
returned result set contains id 0. -/
theorem match_document_complete_witness :
    ∃ (sc : TfIdfState) (res : Finset Nat) (m : Metrics),
      matchDocument
          ⟨fun n => if n = 1 then .boolT else .strT (some "default"), 1⟩
          (fun _ => some fun s => [s])
          ⟨[([(0, IVal.text ["bloomberg"])], 0)],
            [(0, .term ⟨0, .str "bloomberg"⟩)], ⟨0, 0, []⟩⟩
          [(0, .str "bloomberg")] = (sc, .ok (res, m)) ∧
        0 ∈ res := by
  refine ⟨_, _, _, rfl, ?_⟩
  refine match_document_complete
    ⟨fun n => if n = 1 then .boolT else .strT (some "default"), 1⟩
    (fun _ => some fun s => [s])
    ⟨[([(0, IVal.text ["bloomberg"])], 0)],
      [(0, .term ⟨0, .str "bloomberg"⟩)], ⟨0, 0, []⟩⟩
    [(0, .str "bloomberg")] 0 (.term ⟨0, .str "bloomberg"⟩) (fun _ => 0)
    _ _ _ rfl rfl ?_ ?_ rfl (by decide)
  · intro s hs
    rw [show decompose (.term ⟨0, .str "bloomberg"⟩) =
        [.term ⟨0, .str "bloomberg"⟩] from by simp [decompose]] at hs
    rcases List.mem_singleton.1 hs with rfl
    decide
  · intro s hs tm htm
    rw [show decompose (.term ⟨0, .str "bloomberg"⟩) =
        [.term ⟨0, .str "bloomberg"⟩] from by simp [decompose]] at hs
    rcases List.mem_singleton.1 hs with rfl
    rw [show toAst (.term ⟨0, .str "bloomberg"⟩) =
        QTree.term ⟨0, .str "bloomberg"⟩ from by rw [toAst]] at htm
    rw [show selectTerms (fun _ => 0) 1 (QTree.term ⟨0, .str "bloomberg"⟩) =
        [⟨0, .str "bloomberg"⟩] from by rw [selectTerms]] at htm
    rcases List.mem_singleton.1 htm with rfl
    exact Or.inr ⟨some "default", rfl⟩
